import Mathlib

/-!
Verification of the LocalRAG retrieval pipeline.

Shallow embedding of the Python sources:
  `simple_localrag.py` (rule-based semantic reranker, deduplicator, demo ask endpoint),
  `app/services/search.py` (score normalization and hybrid fusion),
  `app/services/llm.py` (context assembly, generation wrapper, citations),
  `app/services/chunking.py` (recursive splitter and chunker with overlap).

Modelling conventions:
  * Python strings are `String` (or `List Char` where character-level reasoning
    is needed); Python `len` on a string is `String.length` / `List.length`.
  * Python floats are `ℚ`: the score pipeline only adds, multiplies and divides,
    so rational arithmetic models it exactly.
  * Python dicts with a fixed key set are structures; a key that may be absent
    is an `Option` field (`none` = key absent).  Python dicts used as ordered
    maps (`combined_scores`, `chunk_data`) are association lists that mirror
    CPython's insertion-order semantics: assignment to an existing key keeps
    its position, a new key is appended at the end.
  * Calls into external libraries are parameters of the embedding:
    `hash` for `hashlib.md5(...).hexdigest()`, `sim` for
    `difflib.SequenceMatcher(...).ratio()`, `tok` for
    `len(tiktoken_encoding.encode(...))`, `gen` for the Ollama generate call.
  * Wall-clock durations (`time.time()` differences) are inputs of the
    embedding, since they are nondeterministic at the program level.
  * Python's `sorted(..., key=..., reverse=True)` is a stable descending sort;
    it is embedded as an insertion sort (`sortByDesc`), which computes the
    unique stable descending ordering, hence the same list.
-/

namespace LocalRAG

/-! ### Character/string utilities (Python `str.strip`, `str.lower`, `in`, `str.split`) -/

/-- Whitespace test used by Python `strip()`/`split()` (ASCII subset). -/
def wsp (c : Char) : Bool := c.isWhitespace

/-- Python `s.strip()` on a character list: drop whitespace from both ends. -/
def trimChars (l : List Char) : List Char :=
  ((l.dropWhile wsp).reverse.dropWhile wsp).reverse

/-- Python `s.strip()` for `String`. -/
def pyStrip (s : String) : String := ⟨trimChars s.data⟩

/-- Python `s.lower()` (ASCII case mapping). -/
def lowerStr (s : String) : String := ⟨s.data.map Char.toLower⟩

/-- `startsWithL needle hay`: `hay` begins with `needle`. -/
def startsWithL : List Char → List Char → Bool
  | [], _ => true
  | _ :: _, [] => false
  | a :: as, b :: bs => a = b && startsWithL as bs

/-- `hasSubL needle hay`: `needle` occurs as a contiguous run inside `hay`. -/
def hasSubL (needle : List Char) : List Char → Bool
  | [] => needle.isEmpty
  | c :: cs => startsWithL needle (c :: cs) || hasSubL needle cs

/-- Python `needle in hay` for strings. -/
def pyIn (needle hay : String) : Bool := hasSubL needle.data hay.data

/-- Python `any(marker in text for marker in markers)`. -/
def anyIn (markers : List String) (text : String) : Bool :=
  markers.any (fun m => pyIn m text)

/-- Python `s.split()` (split on whitespace runs, no empty pieces):
    accumulator-based worker, `acc` holds the current word reversed. -/
def splitWordsAux : List Char → List Char → List (List Char)
  | [], acc => if acc = [] then [] else [acc.reverse]
  | c :: cs, acc =>
    if wsp c then
      if acc = [] then splitWordsAux cs [] else acc.reverse :: splitWordsAux cs []
    else splitWordsAux cs (c :: acc)

/-- Python `s.split()` on a character list. -/
def splitWords (l : List Char) : List (List Char) := splitWordsAux l []

/-- Python `" ".join(ws)` on character lists. -/
def joinWords : List (List Char) → List Char
  | [] => []
  | [w] => w
  | w :: ws => w ++ ' ' :: joinWords ws

/-- Python `a + (" " if a else "") + b`. -/
def joinSp (a b : List Char) : List Char := if a = [] then b else a ++ ' ' :: b

/-- Position of the first occurrence of `k` (list length when absent). -/
def keyPos (k : String) : List String → Nat
  | [] => 0
  | x :: xs => if x = k then 0 else keyPos k xs + 1

/-- First-occurrence deduplication of a list of ids, skipping ids in `seen`. -/
def firstDedup (seen : List String) : List String → List String
  | [] => []
  | x :: xs => if x ∈ seen then firstDedup seen xs else x :: firstDedup (x :: seen) xs

/-- Python `min(scores)` (the `[]` case never occurs at call sites). -/
def listMin : List ℚ → ℚ
  | [] => 0
  | x :: xs => xs.foldl min x

/-- Python `max(scores)` (the `[]` case never occurs at call sites). -/
def listMax : List ℚ → ℚ
  | [] => 0
  | x :: xs => xs.foldl max x

/-! ### Stable descending sort (Python `sorted(..., key=..., reverse=True)`) -/

/-- Insert `x` into a descending-sorted list, before the first element whose
    key is not greater — so an earlier input element precedes later elements
    with an equal key (stability). -/
def insertByDesc {α : Type} (key : α → ℚ) (x : α) : List α → List α
  | [] => [x]
  | y :: ys => if key x < key y then y :: insertByDesc key x ys else x :: y :: ys

/-- Stable descending sort by `key`; equal-key elements keep input order,
    exactly like CPython's stable `sorted(..., reverse=True)`. -/
def sortByDesc {α : Type} (key : α → ℚ) : List α → List α
  | [] => []
  | x :: xs => insertByDesc key x (sortByDesc key xs)

/-! ### Deduplicator — `simple_localrag.advanced_deduplication`

State of the Python loop: `unique_sections` (the accepted list), `seen_hashes`
(= hashes of accepted sections) and `seen_lines` (= long lines of accepted
sections).  The two sets are recomputed from the accepted list, which is
exactly the value they hold at each loop iteration, since only accepted
sections contribute to them. -/

/-- Non-empty trimmed lines of a section
    (`[line.strip() for line in section_clean.split("\n") if line.strip()]`). -/
def sectionLines (c : String) : List String :=
  ((c.splitOn "\n").map pyStrip).filter (fun l => l ≠ "")

/-- Lines a section contributes to `seen_lines` (only lines longer than 10). -/
def longLines (c : String) : List String :=
  (sectionLines c).filter (fun l => 10 < l.length)

/-- Contents of `seen_lines` after accepting the sections in `accepted`. -/
def seenLinesOf (accepted : List String) : List String :=
  (accepted.map longLines).flatten

/-- One acceptance decision of `advanced_deduplication` for a stripped,
    non-empty candidate `c` against the accepted list: exact-hash level,
    line-overlap level, fuzzy-similarity level. -/
def acceptSection (hash : String → String) (sim : String → String → ℚ)
    (accepted : List String) (c : String) : Bool :=
  if (accepted.map hash).contains (hash c) then false
  else
    let lines := sectionLines c
    let dups := (lines.filter (fun l => (seenLinesOf accepted).contains l)).length
    if lines ≠ [] ∧ (1 : ℚ) / 2 < (dups : ℚ) / (lines.length : ℚ) then false
    else
      let isSim := accepted.any (fun existing =>
        let threshold : ℚ := if c.length < 300 then 9 / 10 else 85 / 100
        threshold < sim (lowerStr (c.take 400)) (lowerStr (existing.take 400)))
      !isSim

/-- The Python `for section in sections` loop, carrying the accepted list. -/
def dedupGo (hash : String → String) (sim : String → String → ℚ)
    (accepted : List String) : List String → List String
  | [] => accepted
  | s :: rest =>
    let c := pyStrip s
    if c = "" then dedupGo hash sim accepted rest
    else if acceptSection hash sim accepted c then dedupGo hash sim (accepted ++ [c]) rest
    else dedupGo hash sim accepted rest

/-- `advanced_deduplication(sections)` from `simple_localrag.py`. -/
def advanced_deduplication (hash : String → String) (sim : String → String → ℚ)
    (sections : List String) : List String :=
  if sections = [] then sections else dedupGo hash sim [] sections

/-- Sections newly accepted by `dedupGo` beyond the incoming accepted list
    (proof helper: `dedupGo acc X = acc ++ dedupNew acc X`). -/
def dedupNew (hash : String → String) (sim : String → String → ℚ)
    (accepted : List String) : List String → List String
  | [] => []
  | s :: rest =>
    let c := pyStrip s
    if c = "" then dedupNew hash sim accepted rest
    else if acceptSection hash sim accepted c then c :: dedupNew hash sim (accepted ++ [c]) rest
    else dedupNew hash sim accepted rest

/-- A list each of whose elements is stripped, non-empty, and accepted
    against the accepted-so-far prefix (proof helper for idempotence). -/
def ChainAccept (hash : String → String) (sim : String → String → ℚ)
    (accepted : List String) : List String → Prop
  | [] => True
  | c :: L => pyStrip c = c ∧ c ≠ "" ∧ acceptSection hash sim accepted c = true ∧
      ChainAccept hash sim (accepted ++ [c]) L

/-! ### Fusion — `app/services/search.py`

`SearchResult` models one result dict.  The keys written by the pipeline
(`normalized_score`, `bm25_score`, `dense_score`, `hybrid_score`) are `Option`
fields, `none` meaning the key is absent. -/

structure SearchResult where
  chunk_id : String
  score : ℚ
  normalized_score : Option ℚ
  bm25_score : Option ℚ
  dense_score : Option ℚ
  hybrid_score : Option ℚ
  deriving DecidableEq, Repr

/-- A bare result as produced by a searcher: only `chunk_id` and `score`. -/
def mkResult (id : String) (sc : ℚ) : SearchResult :=
  { chunk_id := id, score := sc, normalized_score := none, bm25_score := none,
    dense_score := none, hybrid_score := none }

/-- `HybridSearchService.normalize_scores`: min–max normalization; when all
    scores are equal every result gets `max_score`.  In Python the function
    mutates the result dicts in place and returns the same list; the embedding
    returns the post-mutation value of each dict, in order. -/
def normalize_scores (results : List SearchResult) (max_score : ℚ) : List SearchResult :=
  if results = [] then results
  else
    let scores := results.map (·.score)
    let min_score := listMin scores
    let score_range := listMax scores - min_score
    if score_range = 0 then
      results.map (fun r => { r with normalized_score := some max_score })
    else
      results.map (fun r =>
        { r with normalized_score := some ((r.score - min_score) / score_range * max_score) })

/-! Association lists with CPython dict semantics: assignment to a present key
keeps its position, a new key is appended at the end. -/

/-- `d[k] = v` on an insertion-ordered dict. -/
def dictSet {β : Type} (l : List (String × β)) (k : String) (v : β) : List (String × β) :=
  if (l.map Prod.fst).contains k then
    l.map (fun p => if p.1 = k then (p.1, v) else p)
  else l ++ [(k, v)]

/-- `d[k] += v` on an insertion-ordered dict of rationals (key present). -/
def dictAddQ (l : List (String × ℚ)) (k : String) (v : ℚ) : List (String × ℚ) :=
  l.map (fun p => if p.1 = k then (p.1, p.2 + v) else p)

/-- In-place update of the value stored under a present key
    (`chunk_data[chunk_id]["dense_score"] = ...`). -/
def dictUpd {β : Type} (l : List (String × β)) (k : String) (f : β → β) : List (String × β) :=
  l.map (fun p => if p.1 = k then (p.1, f p.2) else p)

/-- `k in d`. -/
def dictMem {β : Type} (l : List (String × β)) (k : String) : Bool :=
  (l.map Prod.fst).contains k

/-- `d[k]` with a default for the (unreachable at call sites) missing case. -/
def dictGetD {β : Type} (l : List (String × β)) (k : String) (d : β) : β :=
  match l.find? (fun p => p.1 = k) with
  | some p => p.2
  | none => d

/-- The two accumulation loops of `combine_results`: build `combined_scores`
    (chunk id ↦ accumulated weighted score) and `chunk_data` (chunk id ↦
    current state of the tracked result dict).  BM25 results are processed
    first, then dense results. -/
def combineMaps (bm25_weight dense_weight : ℚ) (bmN dnN : List SearchResult) :
    List (String × ℚ) × List (String × SearchResult) :=
  let st1 := bmN.foldl (fun st r =>
    (dictSet st.1 r.chunk_id ((r.normalized_score.getD 0) * bm25_weight),
     dictSet st.2 r.chunk_id { r with bm25_score := some r.score, dense_score := some 0 }))
    ([], [])
  dnN.foldl (fun st r =>
    if dictMem st.1 r.chunk_id then
      (dictAddQ st.1 r.chunk_id ((r.normalized_score.getD 0) * dense_weight),
       dictUpd st.2 r.chunk_id (fun c => { c with dense_score := some r.score }))
    else
      (dictSet st.1 r.chunk_id ((r.normalized_score.getD 0) * dense_weight),
       dictSet st.2 r.chunk_id { r with bm25_score := some 0, dense_score := some r.score }))
    st1

/-- `HybridSearchService.combine_results`: normalize both lists, accumulate
    weighted scores per chunk id, sort descending (stable), truncate to
    `final_top_k`, and emit a fresh copy of each tracked dict with the fused
    score written to `score` and `hybrid_score`. -/
def combine_results (bm25_weight dense_weight : ℚ) (final_top_k : Nat)
    (bm25_results dense_results : List SearchResult) : List SearchResult :=
  let bmN := normalize_scores bm25_results 1
  let dnN := normalize_scores dense_results 1
  let maps := combineMaps bm25_weight dense_weight bmN dnN
  let sorted_chunks := sortByDesc Prod.snd maps.1
  (sorted_chunks.take final_top_k).map (fun p =>
    let c := dictGetD maps.2 p.1 (mkResult p.1 0)
    { c with score := p.2, hybrid_score := some p.2 })

/-! ### Rule-based reranker — `simple_localrag.py`

`RChunk` models the chunk dicts fed to `semantic_reranker_with_rules`:
`text` and `score` come from the search stage; `reranked_score` and
`original_score` are the keys the reranker writes on its copies. -/

structure RChunk where
  text : String
  score : ℚ
  reranked_score : ℚ
  original_score : ℚ
  deriving DecidableEq, Repr

/-- A search-stage chunk before reranking (extra keys absent; their values
    are irrelevant and normalized to 0 here because the reranker overwrites
    both on its copy). -/
def mkRChunk (text : String) (sc : ℚ) : RChunk :=
  { text := text, score := sc, reranked_score := 0, original_score := 0 }

/-- Roadmap markers tested by `semantic_reranker_with_rules` (Rule 1). -/
def roadmapMarkersRR : List String :=
  ["q1", "q2", "q3", "q4", "планы", "roadmap", "будущ", "планируется"]

/-- `specific_features` dict of `detect_existing_feature`, in insertion order. -/
def specificFeatures : List (String × List String) :=
  [("slack", ["slack", "интеграции", "поддерживаются:", "zendesk", "salesforce"]),
   ("live chat", ["live chat", "виджет", "чат", "реальном времени"]),
   ("2fa", ["двухфакторная", "2fa", "sms", "authy", "google authenticator"]),
   ("пробный период", ["пробный период", "14 дней", "тестовый", "trial"]),
   ("ticketing", ["ticketing system", "тикет", "обращени", "управление"]),
   ("аналитика", ["аналитика", "отчёты", "sla"]),
   ("поддержка", ["support@", "email:", "telegram", "live chat", "часы работы"])]

/-- Roadmap markers used inside the per-feature check of
    `detect_existing_feature`. -/
def detectRoadmap1 : List String :=
  ["q1", "q2", "q3", "q4", "планируется", "будущем", "roadmap"]

/-- General existing-feature markers of `detect_existing_feature`. -/
def existingMarkers : List String :=
  ["поддерживается", "доступно", "включает", "функции helpzen", "основные функции",
   "возможности", "методы входа", "можно", "умеет", "тарифы", "стоимость", "есть", "имеется"]

/-- Roadmap markers used by the general fallback of `detect_existing_feature`. -/
def detectRoadmap2 : List String :=
  ["q1", "q2", "q3", "q4", "планируется", "будущем", "roadmap", "дорожная карта"]

/-- `detect_existing_feature(text, question)`. -/
def detect_existing_feature (text question : String) : Bool :=
  let question_lower := lowerStr question
  let text_lower := lowerStr text
  let specific := specificFeatures.any (fun f =>
    anyIn f.2 question_lower && anyIn f.2 text_lower && !anyIn detectRoadmap1 text_lower)
  if specific then true
  else
    let has_existing := anyIn existingMarkers text_lower
    let has_roadmap := anyIn detectRoadmap2 text_lower
    has_existing && !has_roadmap

/-- Contact markers of the high-priority `contact` case in `get_category_boost`. -/
def contactMarkersGCB : List String :=
  ["support@", "email:", "telegram", "live chat", "часы работы",
   "пн–пт", "sla:", "ответ в течение", "поддержка", "связаться"]

/-- Security markers of the `security` case in `get_category_boost`. -/
def securityMarkersGCB : List String :=
  ["aws", "шифрование", "soc 2", "данные хранятся", "aes-", "tls",
   "политики безопасности", "франкфурт", "бэкап"]

/-- Pricing markers of the `pricing` case in `get_category_boost`. -/
def pricingMarkersGCB : List String :=
  ["$", "тариф", "бесплатн", "период", "pro:", "business:", "free:",
   "/мес", "агент", "интеграц", "пробный"]

/-- The `boosts.get(question_type, 1.0)` fallback table of `get_category_boost`. -/
def boostsGet (question_type : String) : ℚ :=
  if question_type = "contact" then 35 / 10
  else if question_type = "security" then 28 / 10
  else if question_type = "pricing" then 25 / 10
  else if question_type = "feature_inquiry" then 22 / 10
  else if question_type = "instruction" then 2
  else if question_type = "existence" then 15 / 10
  else 1

/-- `get_category_boost(text, question, question_type)`.  The Python
    `if/elif` chain on `question_type` with early returns, followed by the
    three special-case checks and the table lookup. -/
def get_category_boost (text question question_type : String) : ℚ :=
  let text_lower := lowerStr text
  let question_lower := lowerStr question
  if question_type = "contact" ∧ anyIn contactMarkersGCB text_lower then 35 / 10
  else if question_type = "security" ∧ anyIn securityMarkersGCB text_lower then 28 / 10
  else if question_type = "pricing" ∧ anyIn pricingMarkersGCB text_lower then 25 / 10
  else if (pyIn "2fa" question_lower || pyIn "двухфакторн" question_lower)
      && (pyIn "двухфакторна" text_lower || pyIn "2fa" text_lower || pyIn "authy" text_lower)
    then 35 / 10
  else if (pyIn "ai" question_lower || pyIn "ассистент" question_lower)
      && (pyIn "ai-ассистент" text_lower || pyIn "q4" text_lower)
    then 3
  else if (pyIn "часы работы" question_lower || pyIn "время работы" question_lower)
      && (pyIn "пн–пт" text_lower || pyIn "часы работы" text_lower)
    then 35 / 10
  else boostsGet question_type

/-- `has_contact_info(text)`. -/
def has_contact_info (text : String) : Bool :=
  anyIn ["support@", "email:", "@", "телефон", "часы работы", "telegram", "live chat",
         "пн–пт", "sla:", "ответ в течение", "связаться", "обратиться",
         "поддержка", "техподдержка", "служба", "график работы", "время работы"]
    (lowerStr text)

/-- `has_security_info(text)` (checks the raw text, no lowering). -/
def has_security_info (text : String) : Bool :=
  anyIn ["aws", "шифрование", "aes-", "tls", "soc 2", "безопасность", "политик"] text

/-- `has_pricing_info(text)` (checks the raw text, no lowering). -/
def has_pricing_info (text : String) : Bool :=
  anyIn ["$", "тариф", "стоимость", "бесплатн", "про", "business", "период"] text

/-- Loop body of `semantic_reranker_with_rules` for one chunk: Rules 1–5,
    then the copy carrying `reranked_score`/`original_score`.  The inner
    conditional of Rule 1 keeps the source's (dead) ternary branch verbatim. -/
def applyRules (question question_type : String) (chunk : RChunk) : RChunk :=
  let question_lower := lowerStr question
  let chunk_text := lowerStr chunk.text
  let base0 := chunk.score
  let is_existing_feature := detect_existing_feature chunk_text question_lower
  let is_roadmap_chunk := anyIn roadmapMarkersRR chunk_text
  let base1 :=
    if question_type = "existence" ∨ question_type = "feature_inquiry" then
      if is_existing_feature && is_roadmap_chunk then
        (if is_existing_feature then base0 * (5 / 2) else base0 * (3 / 10))
      else if is_existing_feature then base0 * 2
      else if is_roadmap_chunk then base0 * (3 / 2)
      else base0
    else base0
  let base2 := base1 * get_category_boost chunk_text question_lower question_type
  let base3 := if question_type = "contact" ∧ has_contact_info chunk_text = true
    then base2 * 3 else base2
  let base4 := if question_type = "security" ∧ has_security_info chunk_text = true
    then base3 * (5 / 2) else base3
  let base5 := if question_type = "pricing" ∧ has_pricing_info chunk_text = true
    then base4 * (5 / 2) else base4
  { chunk with reranked_score := base5, original_score := chunk.score }

/-- `semantic_reranker_with_rules(chunks, question, question_type)`. -/
def semantic_reranker_with_rules (chunks : List RChunk) (question question_type : String) :
    List RChunk :=
  sortByDesc (fun c => c.reranked_score) (chunks.map (applyRules question question_type))

/-! ### Answer assembler — `app/services/llm.py`

`LlmResult` models the result dicts reaching `OllamaService`: `metadata` keys
that may be missing are `Option` fields (`metadata.get("page")` etc.).
The Ollama HTTP call is the parameter `gen`; the model-availability check is
not modelled (the endpoint is assumed reachable — it does not affect the
values computed here).  Measured wall-clock durations are inputs. -/

structure ResultMeta where
  doc_title : Option String
  source : Option String
  page : Option Int
  section_ : Option String
  deriving DecidableEq, Repr

structure LlmResult where
  chunk_id : Option String
  text : String
  score : ℚ
  metadata : ResultMeta
  deriving DecidableEq, Repr

/-- The citation header built for one result inside `format_context`.
    Python truthiness: a page of `0` and an empty section string are falsy. -/
def citationInfo (r : LlmResult) : String :=
  let base := "[Document: " ++ r.metadata.doc_title.getD "Unknown Document"
  let withPage := match r.metadata.page with
    | some p => if p ≠ 0 then base ++ ", Page " ++ toString p else base
    | none => base
  let withSection := match r.metadata.section_ with
    | some s => if s ≠ "" then withPage ++ ", Section: " ++ s else withPage
    | none => withPage
  withSection ++ ", Source: " ++ r.metadata.source.getD "unknown" ++ "]"

/-- One formatted context block: header, newline, stripped text, newline. -/
def contextChunk (r : LlmResult) : String :=
  citationInfo r ++ "\n" ++ pyStrip r.text ++ "\n"

/-- The accumulation loop of `format_context`: keep whole formatted chunks
    while the running total stays within `max_context_length`; `break` at the
    first chunk that would overflow. -/
def formatParts (maxLen : Nat) (total : Nat) : List LlmResult → List String
  | [] => []
  | r :: rest =>
    let chunk := contextChunk r
    if maxLen < total + chunk.length then []
    else chunk :: formatParts maxLen (total + chunk.length) rest

/-- `OllamaService.format_context(search_results)`. -/
def format_context (maxLen : Nat) (search_results : List LlmResult) : String :=
  if search_results = [] then ""
  else String.intercalate "\n" (formatParts maxLen 0 search_results)

/-- `OllamaService.create_prompt(question, context)`. -/
def create_prompt (question context : String) : String :=
  "Контекст из документов:\n" ++ context ++
  "\n\nВопрос пользователя: " ++ question ++
  "\n\nИнструкции:\n" ++
  "- Отвечай только на основе предоставленного контекста\n" ++
  "- Обязательно включай цитаты в формате [source: название_документа, page номер_страницы]\n" ++
  "- Если информации недостаточно, честно скажи \"Недостаточно данных для точного ответа\"\n" ++
  "- Отвечай кратко и точно\n" ++
  "- Используй только ту информацию, которая есть в контексте\n\nОтвет:"

structure Citation where
  source : String
  doc_title : String
  section_ : Option String
  page : Option Int
  chunk_id : Option String
  confidence : ℚ
  deriving DecidableEq, Repr

/-- The citation dict built from one search result in `generate_response`. -/
def mkCitation (r : LlmResult) : Citation :=
  { source := r.metadata.source.getD "unknown",
    doc_title := r.metadata.doc_title.getD "Unknown Document",
    section_ := r.metadata.section_, page := r.metadata.page,
    chunk_id := r.chunk_id, confidence := r.score }

/-- The `(source, page)` first-occurrence deduplication loop of
    `generate_response`.  `seen` is a set, so only membership matters; new
    keys are consed for convenience. -/
def dedupCitationsGo (seen : List (String × Option Int)) : List Citation → List Citation
  | [] => []
  | c :: rest =>
    if (c.source, c.page) ∈ seen then dedupCitationsGo seen rest
    else c :: dedupCitationsGo ((c.source, c.page) :: seen) rest

/-- Citation list produced by `generate_response` for given search results. -/
def uniqueCitations (search_results : List LlmResult) : List Citation :=
  dedupCitationsGo [] (search_results.map mkCitation)

/-- `generation_info` dict; `generation_time_ms`/`total_time_ms` are absent
    (`none`) on the empty-context early return. -/
structure GenInfo where
  model : String
  context_length : Nat
  search_results_used : Nat
  generation_time_ms : Option ℚ
  total_time_ms : Option ℚ
  deriving DecidableEq, Repr

structure LlmResponse where
  answer : String
  citations : List Citation
  context_used : String
  generation_info : GenInfo
  deriving DecidableEq, Repr

/-- `OllamaService.generate_response(question, search_results)` with the
    generate endpoint `gen` and the measured durations `tGen`/`tTotal` as
    parameters. -/
def generate_response (modelName : String) (maxLen : Nat) (gen : String → String)
    (tGen tTotal : ℚ) (question : String) (search_results : List LlmResult) : LlmResponse :=
  let context := format_context maxLen search_results
  if context = "" then
    let info : GenInfo :=
      { model := modelName, context_length := 0,
        search_results_used := 0, generation_time_ms := none, total_time_ms := none }
    { answer := "Недостаточно данных для точного ответа.",
      citations := [], context_used := "", generation_info := info }
  else
    let prompt := create_prompt question context
    let generated_text := pyStrip (gen prompt)
    let info : GenInfo :=
      { model := modelName, context_length := context.length,
        search_results_used := search_results.length,
        generation_time_ms := some tGen, total_time_ms := some tTotal }
    { answer := generated_text,
      citations := uniqueCitations search_results,
      context_used := context, generation_info := info }

/-! ### Services pipeline — `app/api/ask.py` `RAGPipeline.process_question`

Only the answer/citations/debug values are modelled; the search call is an
input (its results), the reranker is a parameter, durations are inputs.
Debug fields that merely copy timing sub-dicts are omitted. -/

structure PipelineDebug where
  search_results_count : Nat
  reranked_results_count : Nat
  rerank_time_ms : ℚ
  generation_time_ms : ℚ
  total_time_ms : ℚ
  confidence_score : ℚ
  deriving DecidableEq, Repr

structure PipelineResponse where
  answer : String
  citations : List Citation
  debug : PipelineDebug
  deriving DecidableEq, Repr

/-- `RAGPipeline.process_question`.  `search_results` is the joint search
    outcome; `rerank` the reranker service; `gen` the generator;
    `rerankTime`/`genTime`/`totalTime` the measured stage durations
    (the zero-results early return hardcodes its timing fields instead). -/
def process_question (modelName : String) (maxLen : Nat)
    (rerank : List LlmResult → List LlmResult) (gen : String → String)
    (rerankTime genTime totalTime tGen tTotal : ℚ)
    (question : String) (search_results : List LlmResult) : PipelineResponse :=
  if search_results = [] then
    let dbg : PipelineDebug :=
      { search_results_count := 0, reranked_results_count := 0,
        rerank_time_ms := 0, generation_time_ms := 0,
        total_time_ms := totalTime, confidence_score := 0 }
    { answer := "Не найдено релевантных документов для ответа на ваш вопрос.",
      citations := [], debug := dbg }
  else
    let reranked := rerank search_results
    let llm := generate_response modelName maxLen gen tGen tTotal question reranked
    let avg : ℚ := if reranked = [] then 0
      else ((reranked.map (·.score)).sum) / (reranked.length : ℚ)
    let dbg : PipelineDebug :=
      { search_results_count := search_results.length,
        reranked_results_count := reranked.length,
        rerank_time_ms := rerankTime, generation_time_ms := genTime,
        total_time_ms := totalTime, confidence_score := min avg 1 }
    { answer := llm.answer, citations := llm.citations, debug := dbg }

/-! ### Demo endpoint — `simple_localrag.py` `ask_question`

Only the response construction after the search stages is modelled (the
stages themselves are inputs): the zero-results early return and the
generation branch with its citation list. -/

/-- Round-half-even at 3 decimals, Python's `round(x, 3)` on exact values. -/
def pyRound3 (q : ℚ) : ℚ :=
  let m := q * 1000
  let f : ℤ := Int.floor m
  let r := m - (f : ℚ)
  let n : ℤ :=
    if r < 1 / 2 then f
    else if 1 / 2 < r then f + 1
    else if f % 2 = 0 then f else f + 1
  (n : ℚ) / 1000

structure DemoChunk where
  chunk_id : String
  source : String
  text : String
  score : ℚ
  deriving DecidableEq, Repr

structure DemoCitation where
  source : String
  chunk_id : String
  relevance_score : ℚ
  text_preview : String
  deriving DecidableEq, Repr

structure DemoDebug where
  search_time_ms : ℚ
  generation_time_ms : ℚ
  found_chunks : Nat
  deriving DecidableEq, Repr

structure DemoResponse where
  answer : String
  citations : List DemoCitation
  debug : DemoDebug
  deriving DecidableEq, Repr

/-- Response construction of the demo `ask_question` from the final
    `search_results` list (`reranked_results[:5]`): the zero-results early
    return, else the generation call and the citation loop. -/
def ask_question_core (genAnswer : String → List DemoChunk → String)
    (searchTime genTime : ℚ) (question : String)
    (search_results : List DemoChunk) : DemoResponse :=
  if search_results = [] then
    let dbg : DemoDebug :=
      { search_time_ms := searchTime, generation_time_ms := 0, found_chunks := 0 }
    { answer := "К сожалению, я не нашел релевантной информации для ответа на ваш вопрос в загруженных документах.",
      citations := [], debug := dbg }
  else
    let dbg : DemoDebug :=
      { search_time_ms := searchTime, generation_time_ms := genTime,
        found_chunks := search_results.length }
    { answer := genAnswer question search_results,
      citations := search_results.map (fun r =>
        { source := r.source, chunk_id := r.chunk_id,
          relevance_score := pyRound3 r.score,
          text_preview := if 200 < r.text.length then r.text.take 200 ++ "..." else r.text }),
      debug := dbg }

/-! ### Chunker — `app/services/chunking.py`

Chunk texts are `List Char` (character-level splitting and joining matters
here).  `tok` is the tokenizer contract `len(tokenizer.encode(text))`.
The `while` loop that trims the overlap buffer removes one word per
iteration, so running it on fuel equal to the initial word count is exact. -/

/-- One iteration step of the overlap-trimming `while` loop, on fuel. -/
def trimOvFuel (tok : List Char → Nat) (ov : Nat) : Nat → List Char → List Char
  | 0, s => s
  | n + 1, s =>
    if ov < tok s then
      let words := splitWords s
      if words.length ≤ 1 then s
      else trimOvFuel tok ov n (joinWords (words.drop 1))
    else s

/-- The overlap-buffer trimming loop of `create_chunks_with_overlap`
    (`while count_tokens(overlap_text) > overlap: drop first word`). -/
def trimOverlap (tok : List Char → Nat) (ov : Nat) (s : List Char) : List Char :=
  trimOvFuel tok ov (splitWords s).length s

/-- Mutable state of the `create_chunks_with_overlap` loop. -/
structure ChunkState where
  chunks : List (List Char)
  current : List Char
  buffer : List Char
  deriving Repr

/-- Inner force-split word loop of `create_chunks_with_overlap`: accumulate
    words into `temp_chunk`, flushing it when the next word would overflow. -/
def forceStep (tok : List Char → Nat) (size minsz : Nat)
    (p : List (List Char) × List Char) (w : List Char) : List (List Char) × List Char :=
  let test := joinSp p.2 w
  if tok test ≤ size then (p.1, test)
  else ((if p.2 ≠ [] ∧ minsz ≤ tok p.2 then p.1 ++ [p.2] else p.1), w)

/-- One iteration of the `for part in text_parts` loop of
    `create_chunks_with_overlap`. -/
def chunkStep (tok : List Char → Nat) (size ov minsz : Nat)
    (st : ChunkState) (part0 : List Char) : ChunkState :=
  let part := trimChars part0
  if part = [] then st
  else
    let potential := joinSp st.current part
    if tok potential ≤ size then { st with current := potential }
    else
      let flush := st.current ≠ [] ∧ minsz ≤ tok st.current
      let chunks1 := if flush then st.chunks ++ [st.current] else st.chunks
      let buffer1 :=
        if flush then
          (if ov < tok st.current then trimOverlap tok ov st.current else st.current)
        else st.buffer
      let current1 := joinSp buffer1 part
      if tok current1 ≤ size then { chunks := chunks1, current := current1, buffer := buffer1 }
      else
        let res := (splitWords part).foldl (forceStep tok size minsz) (chunks1, buffer1)
        { chunks := res.1, current := res.2, buffer := buffer1 }

/-- `TextChunker.create_chunks_with_overlap(text_parts)`. -/
def create_chunks_with_overlap (tok : List Char → Nat) (size ov minsz : Nat)
    (text_parts : List (List Char)) : List (List Char) :=
  let st := text_parts.foldl (chunkStep tok size ov minsz) ⟨[], [], []⟩
  if st.current ≠ [] ∧ minsz ≤ tok st.current then st.chunks ++ [st.current] else st.chunks

/-- Left-to-right scan of Python `text.split(sep)` (non-empty `sep`,
    non-overlapping matches), on fuel equal to the remaining text length. -/
def pySplitFuel (sep : List Char) : Nat → List Char → List Char → List (List Char)
  | 0, s, acc => [acc.reverse ++ s]
  | _ + 1, [], acc => [acc.reverse]
  | n + 1, c :: rest, acc =>
    if (c :: rest).take sep.length = sep then
      acc.reverse :: pySplitFuel sep n ((c :: rest).drop sep.length) []
    else
      pySplitFuel sep n rest (c :: acc)

/-- Python `text.split(sep)` for a non-empty separator string, on char lists. -/
def pySplitOnSep (text sep : List Char) : List (List Char) :=
  pySplitFuel sep text.length text []

/-- `TextChunker.split_text_by_separators(text, separators)` on fuel: each
    recursive call consumes one separator, so fuel = number of separators is
    exact and the zero-fuel fallback is unreachable from `split_text_by_separators`. -/
def splitSepsFuel (tok : List Char → Nat) (size : Nat) :
    Nat → List Char → List (List Char) → List (List Char)
  | _, text, [] => [text]
  | 0, text, _ :: _ => [text]
  | n + 1, text, sep :: rest =>
    let parts := pySplitOnSep text sep
    if parts.length = 1 then splitSepsFuel tok size n text rest
    else parts.foldl (fun acc part =>
      acc ++ (if size < tok part then splitSepsFuel tok size n part rest else [part])) []

/-- `TextChunker.split_text_by_separators(text, separators)`. -/
def split_text_by_separators (tok : List Char → Nat) (size : Nat)
    (text : List Char) (separators : List (List Char)) : List (List Char) :=
  splitSepsFuel tok size separators.length text separators

/-- Zero-padded ordinal, Python `f"{n:03d}"` for the values reached here. -/
def pad3 (n : Nat) : String :=
  if n < 10 then "00" ++ toString n
  else if n < 100 then "0" ++ toString n
  else toString n

/-- The metadata dict handed to `create_chunks` (keys that may be missing are
    `Option`; of `metadata["pages"]` only the length is used downstream). -/
structure ChunkMeta where
  doc_id : Option String
  title : Option String
  source_path : Option String
  file_type : Option String
  language : Option String
  pages : Option Nat
  char_count : Option Nat
  deriving DecidableEq, Repr

/-- One chunk dict produced by `create_chunks` (the nested metadata sub-dict
    is flattened: `page` is its optional `"page"` key; the copied title/source
    fields and the wall-clock `created_at` are not repeated here). -/
structure ChunkRec where
  chunk_id : String
  doc_id : Option String
  text : List Char
  char_start : Nat
  char_end : Nat
  chunk_index : Nat
  token_count : Nat
  char_count : Nat
  page : Option Nat
  deriving DecidableEq, Repr

/-- The `for i, chunk_text in enumerate(chunk_texts)` loop of `create_chunks`,
    tracking `char_position` and the ordinal. -/
def buildChunkRecs (tok : List Char → Nat) (meta : ChunkMeta) (textLen : Nat) :
    Nat → Nat → List (List Char) → List ChunkRec
  | _, _, [] => []
  | i, pos, t :: rest =>
    let page : Option Nat :=
      match meta.pages with
      | none => none
      | some npages =>
        let total_chars := meta.char_count.getD textLen
        let progress : ℚ := if 0 < total_chars then (pos : ℚ) / (total_chars : ℚ) else 0
        let est : ℤ := Int.floor (progress * (npages : ℚ)) + 1
        some (min est.toNat npages)
    { chunk_id := meta.doc_id.getD "unknown" ++ "_" ++ pad3 (i + 1),
      doc_id := meta.doc_id, text := t,
      char_start := pos, char_end := pos + t.length, chunk_index := i,
      token_count := tok t, char_count := t.length,
      page := page } :: buildChunkRecs tok meta textLen (i + 1) (pos + t.length + 1) rest

/-- `TextChunker.create_chunks(text, metadata)` (logging and timestamps
    dropped; tokenizer and chunking configuration are parameters). -/
def create_chunks (tok : List Char → Nat) (size ov minsz : Nat)
    (separators : List (List Char)) (text : List Char) (meta : ChunkMeta) : List ChunkRec :=
  let text_parts := split_text_by_separators tok size text separators
  let chunk_texts := create_chunks_with_overlap tok size ov minsz text_parts
  buildChunkRecs tok meta text.length 0 0 chunk_texts

/-- A chunk string in "tidy" shape: empty, or beginning and ending with a
    non-whitespace character (all strings reached by the chunker state are
    tidy: parts are stripped and joins use single spaces). -/
def Tidy (s : List Char) : Prop :=
  s.dropWhile wsp = s ∧ s.reverse.dropWhile wsp = s.reverse

/-- All whitespace-words occurring in a list of parts. -/
def allWords (parts : List (List Char)) : List (List Char) :=
  (parts.map splitWords).flatten

/-- A word list with no empty word and no whitespace character. -/
def GoodWords (ws : List (List Char)) : Prop :=
  ∀ w ∈ ws, w ≠ [] ∧ ∀ c ∈ w, wsp c = false

/-- Invariant of the chunker state: every emitted chunk fits the token
    budget; `current` and `buffer` are empty or tidy, within budget, and made
    of words drawn from `PW`. -/
def GoodState (tok : List Char → Nat) (size : Nat) (PW : List (List Char))
    (st : ChunkState) : Prop :=
  (∀ c ∈ st.chunks, tok c ≤ size) ∧
  (st.current = [] ∨ (Tidy st.current ∧ tok st.current ≤ size ∧
    ∀ w ∈ splitWords st.current, w ∈ PW)) ∧
  (st.buffer = [] ∨ (Tidy st.buffer ∧ tok st.buffer ≤ size ∧
    ∀ w ∈ splitWords st.buffer, w ∈ PW))

/-- Invariant of the force-split inner loop: flushed chunks fit the budget;
    `temp_chunk` is empty or tidy, within budget, made of words from `PW`. -/
def GoodForce (tok : List Char → Nat) (size : Nat) (PW : List (List Char))
    (p : List (List Char) × List Char) : Prop :=
  (∀ c ∈ p.1, tok c ≤ size) ∧
  (p.2 = [] ∨ (Tidy p.2 ∧ tok p.2 ≤ size ∧ ∀ w ∈ splitWords p.2, w ∈ PW))

/-- Total character length of a list of formatted context parts. -/
def sumLen (parts : List String) : Nat := (parts.map String.length).sum

/-- Deduplication key of a citation. -/
def citKey (c : Citation) : String × Option Int := (c.source, c.page)

/-- Observable identity of a search-result dict apart from the keys the
    fusion stage writes (`normalized_score` is excluded). -/
def resultCore (r : SearchResult) : String × ℚ × Option ℚ :=
  (r.chunk_id, r.score, r.hybrid_score)

/-- Observable identity of a search-result dict apart from `normalized_score`
    only (used to state that normalization writes nothing else). -/
def resultNoNorm (r : SearchResult) : String × ℚ × Option ℚ × Option ℚ × Option ℚ :=
  (r.chunk_id, r.score, r.bm25_score, r.dense_score, r.hybrid_score)

/-- Invariant of the two accumulation loops of `combine_results`:
    `combined_scores` and `chunk_data` hold the same keys in the same order,
    keys are unique, each tracked dict sits under its own chunk id, and each
    tracked dict keeps the `score` (and `hybrid_score`) of the result dict of
    `origin` it aliases. -/
def CombInv (origin : List SearchResult)
    (st : List (String × ℚ) × List (String × SearchResult)) : Prop :=
  st.1.map Prod.fst = st.2.map Prod.fst ∧
  (st.1.map Prod.fst).Nodup ∧
  (∀ p ∈ st.2, p.2.chunk_id = p.1) ∧
  (∀ p ∈ st.2, ∃ r ∈ origin, p.2.chunk_id = r.chunk_id ∧ p.2.score = r.score ∧
    p.2.hybrid_score = r.hybrid_score)

/-- Insertion order of `combined_scores` for a `combine_results` call: the
    chunk ids in order of first appearance, lexical results first. -/
def combinedKeys (bm25_weight dense_weight : ℚ) (bm dn : List SearchResult) : List String :=
  (combineMaps bm25_weight dense_weight
    (normalize_scores bm 1) (normalize_scores dn 1)).1.map Prod.fst

/-! ## Proof development -/

/-! ### `dropWhile` and trimming lemmas -/

theorem dropWhile_idem {α : Type} (p : α → Bool) (l : List α) :
    (l.dropWhile p).dropWhile p = l.dropWhile p := by
  induction l with
  | nil => rfl
  | cons c cs ih =>
    by_cases h : p c
    · simp [List.dropWhile_cons, h, ih]
    · simp [List.dropWhile_cons, h]

theorem dropWhile_eq_self_of_head {α : Type} {p : α → Bool} {l : List α}
    (h : ∀ c, l.head? = some c → p c = false) : l.dropWhile p = l := by
  cases l with
  | nil => rfl
  | cons c cs => simp [List.dropWhile_cons, h c rfl]

theorem head_false_of_dropWhile_eq_self {α : Type} {p : α → Bool} {l : List α}
    (h : l.dropWhile p = l) {c : α} (hc : l.head? = some c) : p c = false := by
  cases l with
  | nil => simp at hc
  | cons x xs =>
    have hx : x = c := by simpa using hc
    rw [← hx]
    by_cases hp : p x
    · exfalso
      rw [List.dropWhile_cons, if_pos hp] at h
      have hlen : (xs.dropWhile p).length ≤ xs.length :=
        List.Sublist.length_le (List.dropWhile_sublist p)
      rw [h] at hlen
      simp only [List.length_cons] at hlen
      omega
    · simpa using hp

theorem head?_append_left {α : Type} {y : List α} (t : List α) (hy : y ≠ []) :
    (y ++ t).head? = y.head? := by
  cases y with
  | nil => exact absurd rfl hy
  | cons a as => rfl

/-- Decomposition of a list into its trailing-trim and the trimmed tail. -/
theorem trim_decomposition (l : List Char) :
    l.dropWhile wsp =
      (((l.dropWhile wsp).reverse.dropWhile wsp).reverse ++
        ((l.dropWhile wsp).reverse.takeWhile wsp).reverse) := by
  set m := l.dropWhile wsp
  have h1 : m.reverse.takeWhile wsp ++ m.reverse.dropWhile wsp = m.reverse :=
    List.takeWhile_append_dropWhile wsp m.reverse
  calc m = m.reverse.reverse := (List.reverse_reverse m).symm
    _ = (m.reverse.takeWhile wsp ++ m.reverse.dropWhile wsp).reverse := by rw [h1]
    _ = (m.reverse.dropWhile wsp).reverse ++ (m.reverse.takeWhile wsp).reverse := by
        rw [List.reverse_append]

theorem trimChars_reverse_fixed (l : List Char) :
    (trimChars l).reverse.dropWhile wsp = (trimChars l).reverse := by
  unfold trimChars
  rw [List.reverse_reverse]
  exact dropWhile_idem wsp _

theorem trimChars_dropWhile_fixed (l : List Char) :
    (trimChars l).dropWhile wsp = trimChars l := by
  set m := l.dropWhile wsp with hm
  set y := (m.reverse.dropWhile wsp).reverse with hy
  have hdecomp : m = y ++ (m.reverse.takeWhile wsp).reverse := trim_decomposition l
  have hyeq : trimChars l = y := rfl
  rw [hyeq]
  rcases em (y = []) with h0 | h0
  · rw [h0]; rfl
  · apply dropWhile_eq_self_of_head
    intro c hc
    have hm_fix : m.dropWhile wsp = m := dropWhile_idem wsp l
    have hhead : m.head? = some c := by
      rw [hdecomp, head?_append_left _ h0]; exact hc
    exact head_false_of_dropWhile_eq_self hm_fix hhead

theorem trimChars_trimChars (l : List Char) : trimChars (trimChars l) = trimChars l := by
  have h1 := trimChars_dropWhile_fixed l
  have h2 := trimChars_reverse_fixed l
  calc trimChars (trimChars l)
      = (((trimChars l).dropWhile wsp).reverse.dropWhile wsp).reverse := rfl
    _ = ((trimChars l).reverse.dropWhile wsp).reverse := by rw [h1]
    _ = (trimChars l).reverse.reverse := by rw [h2]
    _ = trimChars l := List.reverse_reverse _

theorem pyStrip_pyStrip (s : String) : pyStrip (pyStrip s) = pyStrip s := by
  show String.mk (trimChars (trimChars s.data)) = String.mk (trimChars s.data)
  rw [trimChars_trimChars]

/-! ### Deduplicator lemmas -/

theorem dedupNew_cons_empty {hash : String → String} {sim : String → String → ℚ}
    {acc : List String} {sct : String} {rest : List String} (h1 : pyStrip sct = "") :
    dedupNew hash sim acc (sct :: rest) = dedupNew hash sim acc rest := by
  simp [dedupNew, h1]

theorem dedupNew_cons_accept {hash : String → String} {sim : String → String → ℚ}
    {acc : List String} {sct : String} {rest : List String} (h1 : pyStrip sct ≠ "")
    (h2 : acceptSection hash sim acc (pyStrip sct) = true) :
    dedupNew hash sim acc (sct :: rest) =
      pyStrip sct :: dedupNew hash sim (acc ++ [pyStrip sct]) rest := by
  simp [dedupNew, h1, h2]

theorem dedupNew_cons_reject {hash : String → String} {sim : String → String → ℚ}
    {acc : List String} {sct : String} {rest : List String} (h1 : pyStrip sct ≠ "")
    (h2 : acceptSection hash sim acc (pyStrip sct) = false) :
    dedupNew hash sim acc (sct :: rest) = dedupNew hash sim acc rest := by
  simp [dedupNew, h1, h2]

theorem dedupGo_eq (hash : String → String) (sim : String → String → ℚ) :
    ∀ (X acc : List String), dedupGo hash sim acc X = acc ++ dedupNew hash sim acc X := by
  intro X
  induction X with
  | nil => intro acc; simp [dedupGo, dedupNew]
  | cons sct rest ih =>
    intro acc
    by_cases h1 : pyStrip sct = ""
    · rw [dedupNew_cons_empty h1]
      show dedupGo hash sim acc (sct :: rest) = _
      simp only [dedupGo, h1, if_pos rfl]
      exact ih acc
    · by_cases h2 : acceptSection hash sim acc (pyStrip sct) = true
      · rw [dedupNew_cons_accept h1 h2]
        show dedupGo hash sim acc (sct :: rest) = _
        simp only [dedupGo, if_neg h1, h2, if_pos rfl]
        rw [ih (acc ++ [pyStrip sct])]
        simp
      · have h2' : acceptSection hash sim acc (pyStrip sct) = false := by
          simpa using h2
        rw [dedupNew_cons_reject h1 h2']
        show dedupGo hash sim acc (sct :: rest) = _
        simp only [dedupGo, if_neg h1, h2', Bool.false_eq_true, if_neg, if_false]
        exact ih acc

theorem chain_dedupNew (hash : String → String) (sim : String → String → ℚ) :
    ∀ (X acc : List String), ChainAccept hash sim acc (dedupNew hash sim acc X) := by
  intro X
  induction X with
  | nil => intro acc; exact trivial
  | cons sct rest ih =>
    intro acc
    by_cases h1 : pyStrip sct = ""
    · rw [dedupNew_cons_empty h1]; exact ih acc
    · by_cases h2 : acceptSection hash sim acc (pyStrip sct) = true
      · rw [dedupNew_cons_accept h1 h2]
        exact ⟨pyStrip_pyStrip sct, h1, h2, ih (acc ++ [pyStrip sct])⟩
      · have h2' : acceptSection hash sim acc (pyStrip sct) = false := by
          simpa using h2
        rw [dedupNew_cons_reject h1 h2']; exact ih acc

theorem dedupNew_of_chain (hash : String → String) (sim : String → String → ℚ) :
    ∀ (L acc : List String), ChainAccept hash sim acc L → dedupNew hash sim acc L = L := by
  intro L
  induction L with
  | nil => intro acc _; rfl
  | cons c L ih =>
    intro acc hch
    obtain ⟨hstrip, hne, hacc, hrest⟩ := hch
    have h1 : pyStrip c ≠ "" := by rw [hstrip]; exact hne
    have h2 : acceptSection hash sim acc (pyStrip c) = true := by rw [hstrip]; exact hacc
    rw [dedupNew_cons_accept h1 h2, hstrip]
    exact congrArg (c :: ·) (ih (acc ++ [c]) (hstrip ▸ hrest))

theorem dedupNew_sublist (hash : String → String) (sim : String → String → ℚ) :
    ∀ (X acc : List String), List.Sublist (dedupNew hash sim acc X) (X.map pyStrip) := by
  intro X
  induction X with
  | nil => intro acc; simp [dedupNew]
  | cons sct rest ih =>
    intro acc
    simp only [List.map_cons]
    by_cases h1 : pyStrip sct = ""
    · rw [dedupNew_cons_empty h1]; exact (ih acc).cons (pyStrip sct)
    · by_cases h2 : acceptSection hash sim acc (pyStrip sct) = true
      · rw [dedupNew_cons_accept h1 h2]
        exact (ih (acc ++ [pyStrip sct])).cons₂ (pyStrip sct)
      · have h2' : acceptSection hash sim acc (pyStrip sct) = false := by
          simpa using h2
        rw [dedupNew_cons_reject h1 h2']; exact (ih acc).cons (pyStrip sct)

theorem acceptSection_not_mem {hash : String → String} {sim : String → String → ℚ}
    {acc : List String} {c : String}
    (ha : acceptSection hash sim acc c = true) : c ∉ acc := by
  intro hmem
  have hmem' : hash c ∈ acc.map hash := List.mem_map_of_mem hash hmem
  have hc : (acc.map hash).contains (hash c) = true := by simpa using hmem'
  unfold acceptSection at ha
  rw [if_pos hc] at ha
  exact Bool.false_ne_true ha

theorem chain_disjoint (hash : String → String) (sim : String → String → ℚ) :
    ∀ (L acc : List String), ChainAccept hash sim acc L →
      ∀ x ∈ acc, ∀ y ∈ L, x ≠ y := by
  intro L
  induction L with
  | nil => intro acc _ x _ y hy; simp at hy
  | cons c L ih =>
    intro acc hch x hx y hy
    obtain ⟨_, _, hacc, hrest⟩ := hch
    rcases List.mem_cons.mp hy with rfl | hy
    · intro hxy; exact acceptSection_not_mem hacc (hxy ▸ hx)
    · exact ih (acc ++ [c]) hrest x (List.mem_append_left _ hx) y hy

theorem chain_pairwise_ne (hash : String → String) (sim : String → String → ℚ) :
    ∀ (L acc : List String), ChainAccept hash sim acc L → L.Pairwise (· ≠ ·) := by
  intro L
  induction L with
  | nil => intro _ _; exact List.Pairwise.nil
  | cons c L ih =>
    intro acc hch
    obtain ⟨_, _, _, hrest⟩ := hch
    refine List.pairwise_cons.mpr ⟨?_, ih (acc ++ [c]) hrest⟩
    intro y hy
    exact chain_disjoint hash sim L (acc ++ [c]) hrest c
      (List.mem_append_right _ (List.mem_singleton.mpr rfl)) y hy

theorem chain_stripped (hash : String → String) (sim : String → String → ℚ) :
    ∀ (L acc : List String), ChainAccept hash sim acc L →
      ∀ c ∈ L, pyStrip c = c ∧ c ≠ "" := by
  intro L
  induction L with
  | nil => intro _ _ c hc; simp at hc
  | cons c L ih =>
    intro acc hch d hd
    obtain ⟨hstrip, hne, _, hrest⟩ := hch
    rcases List.mem_cons.mp hd with rfl | hd
    · exact ⟨hstrip, hne⟩
    · exact ih (acc ++ [c]) hrest d hd

theorem advanced_deduplication_eq (hash : String → String) (sim : String → String → ℚ)
    (X : List String) :
    advanced_deduplication hash sim X = dedupNew hash sim [] X := by
  by_cases hX : X = []
  · subst hX; rfl
  · unfold advanced_deduplication
    rw [if_neg hX]
    simpa using dedupGo_eq hash sim X []

/-- C4. The deduplicator is idempotent: feeding its own output back through
    `advanced_deduplication` returns the output unchanged, for every hash
    function, every similarity function and every input sequence. -/
theorem dedup_idempotent (hash : String → String) (sim : String → String → ℚ)
    (X : List String) :
    advanced_deduplication hash sim (advanced_deduplication hash sim X) =
      advanced_deduplication hash sim X := by
  rw [advanced_deduplication_eq hash sim X,
    advanced_deduplication_eq hash sim (dedupNew hash sim [] X)]
  exact dedupNew_of_chain hash sim _ [] (chain_dedupNew hash sim X [])

/-- C5. The deduplicator's output is a subsequence of the trimmed input
    sequence (so the relative order of first occurrence is preserved), every
    output section is trimmed and non-empty, and no two output sections have
    identical text after trimming. -/
theorem dedup_order_and_unique (hash : String → String) (sim : String → String → ℚ)
    (X : List String) :
    List.Sublist (advanced_deduplication hash sim X) (X.map pyStrip) ∧
    (∀ c ∈ advanced_deduplication hash sim X, pyStrip c = c ∧ c ≠ "") ∧
    (advanced_deduplication hash sim X).Pairwise (fun a b => pyStrip a ≠ pyStrip b) := by
  rw [advanced_deduplication_eq hash sim X]
  have hchain := chain_dedupNew hash sim X []
  have hstr := chain_stripped hash sim _ [] hchain
  refine ⟨dedupNew_sublist hash sim X [], hstr, ?_⟩
  have hne := chain_pairwise_ne hash sim _ [] hchain
  exact hne.imp_of_mem (fun {a b} ha hb hab => by
    rw [(hstr a ha).1, (hstr b hb).1]; exact hab)

/-! ### Stable descending sort lemmas -/

theorem insertByDesc_perm {α : Type} (key : α → ℚ) (x : α) (l : List α) :
    (insertByDesc key x l).Perm (x :: l) := by
  induction l with
  | nil => exact List.Perm.refl _
  | cons y ys ih =>
    by_cases h : key x < key y
    · simp only [insertByDesc, if_pos h]
      exact (ih.cons y).trans (List.Perm.swap x y ys)
    · simp only [insertByDesc, if_neg h]
      exact List.Perm.refl _

theorem sortByDesc_perm {α : Type} (key : α → ℚ) (l : List α) :
    (sortByDesc key l).Perm l := by
  induction l with
  | nil => exact List.Perm.refl _
  | cons x xs ih =>
    exact (insertByDesc_perm key x (sortByDesc key xs)).trans (ih.cons x)

theorem insertByDesc_sorted {α : Type} (key : α → ℚ) (x : α) (l : List α)
    (h : l.Pairwise (fun a b => key b ≤ key a)) :
    (insertByDesc key x l).Pairwise (fun a b => key b ≤ key a) := by
  induction l with
  | nil => simp [insertByDesc]
  | cons y ys ih =>
    rcases List.pairwise_cons.mp h with ⟨hy, hys⟩
    by_cases hk : key x < key y
    · simp only [insertByDesc, if_pos hk]
      refine List.pairwise_cons.mpr ⟨?_, ih hys⟩
      intro z hz
      have hz' := (insertByDesc_perm key x ys).mem_iff.mp hz
      rcases List.mem_cons.mp hz' with rfl | hz''
      · exact le_of_lt hk
      · exact hy z hz''
    · simp only [insertByDesc, if_neg hk]
      refine List.pairwise_cons.mpr ⟨?_, h⟩
      intro z hz
      rcases List.mem_cons.mp hz with rfl | hz'
      · exact le_of_not_lt hk
      · exact le_trans (hy z hz') (le_of_not_lt hk)

theorem sortByDesc_sorted {α : Type} (key : α → ℚ) (l : List α) :
    (sortByDesc key l).Pairwise (fun a b => key b ≤ key a) := by
  induction l with
  | nil => exact List.Pairwise.nil
  | cons x xs ih => exact insertByDesc_sorted key x _ ih

theorem insertByDesc_pairwise_tie {α : Type} (key : α → ℚ) (P : α → α → Prop)
    (x : α) (l : List α)
    (h : l.Pairwise (fun a b => key a = key b → P a b))
    (hx : ∀ y ∈ l, key x = key y → P x y) :
    (insertByDesc key x l).Pairwise (fun a b => key a = key b → P a b) := by
  induction l with
  | nil => simp [insertByDesc]
  | cons y ys ih =>
    rcases List.pairwise_cons.mp h with ⟨hy, hys⟩
    by_cases hk : key x < key y
    · simp only [insertByDesc, if_pos hk]
      refine List.pairwise_cons.mpr
        ⟨?_, ih hys (fun z hz => hx z (List.mem_cons_of_mem y hz))⟩
      intro z hz
      have hz' := (insertByDesc_perm key x ys).mem_iff.mp hz
      rcases List.mem_cons.mp hz' with rfl | hz''
      · intro he; exact absurd he (ne_of_gt hk)
      · exact hy z hz''
    · simp only [insertByDesc, if_neg hk]
      refine List.pairwise_cons.mpr ⟨?_, h⟩
      intro z hz
      rcases List.mem_cons.mp hz with rfl | hz'
      · exact hx z (List.mem_cons_self z ys)
      · exact hx z (List.mem_cons_of_mem y hz')

theorem sortByDesc_pairwise_tie {α : Type} (key : α → ℚ) (P : α → α → Prop)
    (l : List α) (h : l.Pairwise (fun a b => key a = key b → P a b)) :
    (sortByDesc key l).Pairwise (fun a b => key a = key b → P a b) := by
  induction l with
  | nil => exact List.Pairwise.nil
  | cons x xs ih =>
    rcases List.pairwise_cons.mp h with ⟨hx, hxs⟩
    refine insertByDesc_pairwise_tie key P x _ (ih hxs) ?_
    intro y hy
    exact hx y ((sortByDesc_perm key xs).mem_iff.mp hy)

/-! ### Normalization lemmas -/

theorem dictGetD_nil {β : Type} (k : String) (d : β) : dictGetD [] k d = d := rfl

theorem dictGetD_cons {β : Type} (k' k : String) (v : β) (l : List (String × β)) (d : β) :
    dictGetD ((k', v) :: l) k d = if k' = k then v else dictGetD l k d := by
  by_cases h : k' = k
  · simp [dictGetD, List.find?, h]
  · simp [dictGetD, List.find?, h]

theorem normalize_scores_core (rs : List SearchResult) (m : ℚ) :
    (normalize_scores rs m).map resultNoNorm = rs.map resultNoNorm := by
  unfold normalize_scores
  by_cases h : rs = []
  · simp [h]
  · rw [if_neg h]
    dsimp only
    split
    · rw [List.map_map]; rfl
    · rw [List.map_map]; rfl

theorem normalize_scores_length (rs : List SearchResult) (m : ℚ) :
    (normalize_scores rs m).length = rs.length := by
  have := congrArg List.length (normalize_scores_core rs m)
  simpa using this

theorem foldl_min_const (c : ℚ) : ∀ (l : List ℚ), (∀ x ∈ l, x = c) → l.foldl min c = c := by
  intro l
  induction l with
  | nil => intro _; rfl
  | cons y ys ih =>
    intro h
    have hy : y = c := h y (List.mem_cons_self y ys)
    simp only [List.foldl_cons, hy, min_self]
    exact ih (fun x hx => h x (List.mem_cons_of_mem y hx))

theorem foldl_max_const (c : ℚ) : ∀ (l : List ℚ), (∀ x ∈ l, x = c) → l.foldl max c = c := by
  intro l
  induction l with
  | nil => intro _; rfl
  | cons y ys ih =>
    intro h
    have hy : y = c := h y (List.mem_cons_self y ys)
    simp only [List.foldl_cons, hy, max_self]
    exact ih (fun x hx => h x (List.mem_cons_of_mem y hx))

theorem listMin_const {l : List ℚ} {c : ℚ} (hne : l ≠ []) (h : ∀ x ∈ l, x = c) :
    listMin l = c := by
  cases l with
  | nil => exact absurd rfl hne
  | cons x xs =>
    have hx : x = c := h x (List.mem_cons_self x xs)
    simp only [listMin, hx]
    exact foldl_min_const c xs (fun y hy => h y (List.mem_cons_of_mem x hy))

theorem listMax_const {l : List ℚ} {c : ℚ} (hne : l ≠ []) (h : ∀ x ∈ l, x = c) :
    listMax l = c := by
  cases l with
  | nil => exact absurd rfl hne
  | cons x xs =>
    have hx : x = c := h x (List.mem_cons_self x xs)
    simp only [listMax, hx]
    exact foldl_max_const c xs (fun y hy => h y (List.mem_cons_of_mem x hy))

theorem normalize_scores_all_eq (rs : List SearchResult) (c m : ℚ)
    (h : ∀ r ∈ rs, r.score = c) :
    ∀ r ∈ normalize_scores rs m, r.normalized_score = some m := by
  by_cases hne : rs = []
  · subst hne; intro r hr; simp [normalize_scores] at hr
  · have hsc : ∀ x ∈ rs.map (·.score), x = c := by
      intro x hx
      rcases List.mem_map.mp hx with ⟨r, hr, rfl⟩
      exact h r hr
    have hmapne : rs.map (·.score) ≠ [] := by
      intro habs; exact hne (List.map_eq_nil_iff.mp habs)
    have hmin : listMin (rs.map (·.score)) = c := listMin_const hmapne hsc
    have hmax : listMax (rs.map (·.score)) = c := listMax_const hmapne hsc
    intro r hr
    unfold normalize_scores at hr
    rw [if_neg hne] at hr
    dsimp only at hr
    rw [hmin, hmax, sub_self, if_pos rfl] at hr
    rcases List.mem_map.mp hr with ⟨r0, _, rfl⟩
    rfl

/-- C2. When all scores in an input list are equal (in particular for every
    single-element list), normalization assigns every result the maximum
    normalized value `1.0`; consequently, on lexical `[{a, 10}]` and dense
    `[{b, 0.9}]` with weights 0.3/0.7, fusion returns `[b, a]` with fused
    scores 0.7 and 0.3. -/
theorem normalization_all_equal_and_scenario :
    (∀ (results : List SearchResult) (c : ℚ),
      (∀ r ∈ results, r.score = c) →
      ∀ r ∈ normalize_scores results 1, r.normalized_score = some 1) ∧
    (combine_results (3 / 10) (7 / 10) 10
        [mkResult "a" 10] [mkResult "b" (9 / 10)]).map (fun r => (r.chunk_id, r.score)) =
      [("b", 7 / 10), ("a", 3 / 10)] := by
  constructor
  · intro results c h
    exact normalize_scores_all_eq results c 1 h
  · simp [combine_results, normalize_scores, listMin, listMax, combineMaps,
      dictSet, dictMem, dictAddQ, dictUpd, dictGetD, List.find?, sortByDesc,
      insertByDesc, mkResult]
    norm_num
    simp

/-- Witness for C2: a two-element all-equal list, normalized value of its
    first element. -/
theorem normalization_all_equal_witness :
    (⟨"x", 5, some 1, none, none, none⟩ : SearchResult).normalized_score = some 1 :=
  normalization_all_equal_and_scenario.1 [mkResult "x" 5, mkResult "y" 5] 5
    (by simp [mkResult])
    _ (by simp [normalize_scores, mkResult, listMin, listMax])

/-! ### Dict (association-list) lemmas -/

theorem dictSet_keys {β : Type} (l : List (String × β)) (k : String) (v : β) :
    (dictSet l k v).map Prod.fst =
      if k ∈ l.map Prod.fst then l.map Prod.fst else l.map Prod.fst ++ [k] := by
  unfold dictSet
  by_cases h : k ∈ l.map Prod.fst
  · have hc : (l.map Prod.fst).contains k = true := by simpa using h
    rw [if_pos hc, if_pos h, List.map_map]
    apply List.map_congr_left
    intro p _
    by_cases hp : p.1 = k
    · simp [hp]
    · simp [hp]
  · have hc : ¬(l.map Prod.fst).contains k = true := by simpa using h
    rw [if_neg hc, if_neg h, List.map_append]
    rfl

theorem dictSet_mem {β : Type} {l : List (String × β)} {k : String} {v : β}
    {p : String × β} (hp : p ∈ dictSet l k v) : (p.1 = k ∧ p.2 = v) ∨ p ∈ l := by
  unfold dictSet at hp
  by_cases hc : (l.map Prod.fst).contains k = true
  · rw [if_pos hc] at hp
    rcases List.mem_map.mp hp with ⟨q, hq, rfl⟩
    by_cases hqk : q.1 = k
    · rw [if_pos hqk]; exact Or.inl ⟨hqk, rfl⟩
    · rw [if_neg hqk]; exact Or.inr hq
  · rw [if_neg hc] at hp
    rcases List.mem_append.mp hp with hq | hq
    · exact Or.inr hq
    · rcases List.mem_singleton.mp hq with rfl
      exact Or.inl ⟨rfl, rfl⟩

theorem dictUpd_keys {β : Type} (l : List (String × β)) (k : String) (f : β → β) :
    (dictUpd l k f).map Prod.fst = l.map Prod.fst := by
  unfold dictUpd
  rw [List.map_map]
  apply List.map_congr_left
  intro p _
  by_cases hp : p.1 = k
  · simp [hp]
  · simp [hp]

theorem dictUpd_mem {β : Type} {l : List (String × β)} {k : String} {f : β → β}
    {p : String × β} (hp : p ∈ dictUpd l k f) :
    (∃ q ∈ l, q.1 = k ∧ p = (q.1, f q.2)) ∨ p ∈ l := by
  unfold dictUpd at hp
  rcases List.mem_map.mp hp with ⟨q, hq, rfl⟩
  by_cases hqk : q.1 = k
  · rw [if_pos hqk]; exact Or.inl ⟨q, hq, hqk, rfl⟩
  · rw [if_neg hqk]; exact Or.inr hq

theorem dictAddQ_keys (l : List (String × ℚ)) (k : String) (v : ℚ) :
    (dictAddQ l k v).map Prod.fst = l.map Prod.fst := by
  unfold dictAddQ
  rw [List.map_map]
  apply List.map_congr_left
  intro p _
  by_cases hp : p.1 = k
  · simp [hp]
  · simp [hp]

theorem dictMem_iff {β : Type} (l : List (String × β)) (k : String) :
    dictMem l k = true ↔ k ∈ l.map Prod.fst := by
  simp [dictMem]

theorem dictGetD_chunk_id {cd : List (String × SearchResult)}
    (hinv : ∀ p ∈ cd, p.2.chunk_id = p.1) {k : String}
    (hk : k ∈ cd.map Prod.fst) (d : SearchResult) :
    (dictGetD cd k d).chunk_id = k := by
  induction cd with
  | nil => simp at hk
  | cons q rest ih =>
    rw [show q = (q.1, q.2) from rfl, dictGetD_cons]
    by_cases hq : q.1 = k
    · rw [if_pos hq]
      exact hq ▸ hinv q (List.mem_cons_self q rest)
    · rw [if_neg hq]
      rcases List.mem_cons.mp hk with h | h
      · exact absurd h.symm hq
      · exact ih (fun p hp => hinv p (List.mem_cons_of_mem q hp)) h

theorem dictGetD_self_mem {β : Type} {cd : List (String × β)} {k : String}
    (hk : k ∈ cd.map Prod.fst) (d : β) : (k, dictGetD cd k d) ∈ cd := by
  induction cd with
  | nil => simp at hk
  | cons q rest ih =>
    rw [show q = (q.1, q.2) from rfl, dictGetD_cons]
    by_cases hq : q.1 = k
    · rw [if_pos hq, ← hq]
      exact List.mem_cons_self _ _
    · rw [if_neg hq]
      rcases List.mem_cons.mp hk with h | h
      · exact absurd h.symm hq
      · exact List.mem_cons_of_mem _ (ih h)

/-! ### Fusion-loop invariants -/

theorem combInv_bm_step (origin : List SearchResult) (wb : ℚ)
    (st : List (String × ℚ) × List (String × SearchResult)) (r : SearchResult)
    (hinv : CombInv origin st) (hr : r ∈ origin) :
    CombInv origin
      (dictSet st.1 r.chunk_id ((r.normalized_score.getD 0) * wb),
       dictSet st.2 r.chunk_id { r with bm25_score := some r.score, dense_score := some 0 }) := by
  obtain ⟨hlock, hnd, hid, hor⟩ := hinv
  refine ⟨?_, ?_, ?_, ?_⟩
  · rw [dictSet_keys, dictSet_keys, hlock]
  · rw [dictSet_keys]
    by_cases h : r.chunk_id ∈ st.1.map Prod.fst
    · rw [if_pos h]; exact hnd
    · rw [if_neg h]
      exact hnd.append (List.nodup_singleton _)
        (List.disjoint_singleton.mpr h)
  · intro p hp
    rcases dictSet_mem hp with ⟨h1, h2⟩ | hold
    · rw [h1, h2]
    · exact hid p hold
  · intro p hp
    rcases dictSet_mem hp with ⟨_, h2⟩ | hold
    · exact ⟨r, hr, by rw [h2], by rw [h2], by rw [h2]⟩
    · exact hor p hold

theorem combInv_dn_step (origin : List SearchResult) (wd : ℚ)
    (st : List (String × ℚ) × List (String × SearchResult)) (r : SearchResult)
    (hinv : CombInv origin st) (hr : r ∈ origin) :
    CombInv origin
      (if dictMem st.1 r.chunk_id then
        (dictAddQ st.1 r.chunk_id ((r.normalized_score.getD 0) * wd),
         dictUpd st.2 r.chunk_id (fun c => { c with dense_score := some r.score }))
      else
        (dictSet st.1 r.chunk_id ((r.normalized_score.getD 0) * wd),
         dictSet st.2 r.chunk_id { r with bm25_score := some 0, dense_score := some r.score })) := by
  obtain ⟨hlock, hnd, hid, hor⟩ := hinv
  by_cases hm : dictMem st.1 r.chunk_id = true
  · rw [if_pos hm]
    refine ⟨?_, ?_, ?_, ?_⟩
    · rw [dictAddQ_keys, dictUpd_keys, hlock]
    · rw [dictAddQ_keys]; exact hnd
    · intro p hp
      dsimp only at hp
      rcases dictUpd_mem hp with ⟨q, hq, _, rfl⟩ | hold
      · exact hid q hq
      · exact hid p hold
    · intro p hp
      dsimp only at hp
      rcases dictUpd_mem hp with ⟨q, hq, _, rfl⟩ | hold
      · rcases hor q hq with ⟨r0, hr0, ha, hb, hc⟩
        exact ⟨r0, hr0, ha, hb, hc⟩
      · exact hor p hold
  · rw [if_neg hm]
    refine ⟨?_, ?_, ?_, ?_⟩
    · rw [dictSet_keys, dictSet_keys, hlock]
    · rw [dictSet_keys]
      by_cases h : r.chunk_id ∈ st.1.map Prod.fst
      · rw [if_pos h]; exact hnd
      · rw [if_neg h]
        exact hnd.append (List.nodup_singleton _)
          (List.disjoint_singleton.mpr h)
    · intro p hp
      rcases dictSet_mem hp with ⟨h1, h2⟩ | hold
      · rw [h1, h2]
      · exact hid p hold
    · intro p hp
      rcases dictSet_mem hp with ⟨_, h2⟩ | hold
      · exact ⟨r, hr, by rw [h2], by rw [h2], by rw [h2]⟩
      · exact hor p hold

theorem combInv_bm_fold (origin : List SearchResult) (wb : ℚ) :
    ∀ (rs : List SearchResult) (st : List (String × ℚ) × List (String × SearchResult)),
      CombInv origin st → (∀ r ∈ rs, r ∈ origin) →
      CombInv origin (rs.foldl (fun st r =>
        (dictSet st.1 r.chunk_id ((r.normalized_score.getD 0) * wb),
         dictSet st.2 r.chunk_id { r with bm25_score := some r.score, dense_score := some 0 }))
        st) := by
  intro rs
  induction rs with
  | nil => intro st h _; exact h
  | cons r rest ih =>
    intro st h hall
    rw [List.foldl_cons]
    exact ih _ (combInv_bm_step origin wb st r h (hall r (List.mem_cons_self r rest)))
      (fun x hx => hall x (List.mem_cons_of_mem r hx))

theorem combInv_dn_fold (origin : List SearchResult) (wd : ℚ) :
    ∀ (rs : List SearchResult) (st : List (String × ℚ) × List (String × SearchResult)),
      CombInv origin st → (∀ r ∈ rs, r ∈ origin) →
      CombInv origin (rs.foldl (fun st r =>
        if dictMem st.1 r.chunk_id then
          (dictAddQ st.1 r.chunk_id ((r.normalized_score.getD 0) * wd),
           dictUpd st.2 r.chunk_id (fun c => { c with dense_score := some r.score }))
        else
          (dictSet st.1 r.chunk_id ((r.normalized_score.getD 0) * wd),
           dictSet st.2 r.chunk_id { r with bm25_score := some 0, dense_score := some r.score }))
        st) := by
  intro rs
  induction rs with
  | nil => intro st h _; exact h
  | cons r rest ih =>
    intro st h hall
    rw [List.foldl_cons]
    exact ih _ (combInv_dn_step origin wd st r h (hall r (List.mem_cons_self r rest)))
      (fun x hx => hall x (List.mem_cons_of_mem r hx))

theorem combineMaps_inv (wb wd : ℚ) (bmN dnN : List SearchResult) :
    CombInv (bmN ++ dnN) (combineMaps wb wd bmN dnN) := by
  unfold combineMaps
  dsimp only
  refine combInv_dn_fold (bmN ++ dnN) wd dnN _ ?_ (fun r hr => List.mem_append_right _ hr)
  refine combInv_bm_fold (bmN ++ dnN) wb bmN ([], []) ?_
    (fun r hr => List.mem_append_left _ hr)
  exact ⟨rfl, List.Pairwise.nil, fun p hp => absurd hp (List.not_mem_nil p),
    fun p hp => absurd hp (List.not_mem_nil p)⟩

/-! ### Key-order lemmas for the fusion dicts -/

theorem mem_firstDedup : ∀ (l seen : List String) (x : String),
    x ∈ firstDedup seen l ↔ (x ∉ seen ∧ x ∈ l) := by
  intro l
  induction l with
  | nil => intro seen x; simp [firstDedup]
  | cons y ys ih =>
    intro seen x
    by_cases hy : y ∈ seen
    · simp only [firstDedup, if_pos hy, ih]
      constructor
      · rintro ⟨hns, hmem⟩
        exact ⟨hns, List.mem_cons_of_mem y hmem⟩
      · rintro ⟨hns, hmem⟩
        rcases List.mem_cons.mp hmem with rfl | hmem'
        · exact absurd hy hns
        · exact ⟨hns, hmem'⟩
    · simp only [firstDedup, if_neg hy]
      constructor
      · intro hmem
        rcases List.mem_cons.mp hmem with rfl | hmem'
        · exact ⟨hy, List.mem_cons_self x ys⟩
        · rcases (ih (y :: seen) x).mp hmem' with ⟨hns, hmem''⟩
          exact ⟨fun hx => hns (List.mem_cons_of_mem y hx), List.mem_cons_of_mem y hmem''⟩
      · rintro ⟨hns, hmem⟩
        by_cases hxy : x = y
        · exact hxy ▸ List.mem_cons_self x _
        · rcases List.mem_cons.mp hmem with rfl | hmem'
          · exact absurd rfl hxy
          · exact List.mem_cons_of_mem y
              ((ih (y :: seen) x).mpr ⟨fun hx => by
                rcases List.mem_cons.mp hx with rfl | hx'
                · exact hxy rfl
                · exact hns hx', hmem'⟩)

theorem firstDedup_congr : ∀ (l s1 s2 : List String),
    (∀ x, x ∈ s1 ↔ x ∈ s2) → firstDedup s1 l = firstDedup s2 l := by
  intro l
  induction l with
  | nil => intro s1 s2 _; rfl
  | cons y ys ih =>
    intro s1 s2 h
    by_cases hy : y ∈ s1
    · simp only [firstDedup, if_pos hy, if_pos ((h y).mp hy)]
      exact ih s1 s2 h
    · simp only [firstDedup, if_neg hy, if_neg (fun hx => hy ((h y).mpr hx))]
      refine congrArg (y :: ·) (ih _ _ ?_)
      intro x
      simp only [List.mem_cons]
      exact or_congr Iff.rfl (h x)

theorem bm_fold_keys (wb : ℚ) :
    ∀ (rs : List SearchResult) (st : List (String × ℚ) × List (String × SearchResult)),
      ((rs.foldl (fun st r =>
        (dictSet st.1 r.chunk_id ((r.normalized_score.getD 0) * wb),
         dictSet st.2 r.chunk_id { r with bm25_score := some r.score, dense_score := some 0 }))
        st).1).map Prod.fst =
      st.1.map Prod.fst ++ firstDedup (st.1.map Prod.fst) (rs.map (·.chunk_id)) := by
  intro rs
  induction rs with
  | nil => intro st; simp [firstDedup]
  | cons r rest ih =>
    intro st
    rw [List.foldl_cons, List.map_cons]
    by_cases hm : r.chunk_id ∈ st.1.map Prod.fst
    · rw [ih]
      simp only [dictSet_keys, if_pos hm, firstDedup, if_pos hm]
    · rw [ih]
      simp only [dictSet_keys, if_neg hm, firstDedup, if_neg hm]
      rw [List.append_assoc]
      refine congrArg (st.1.map Prod.fst ++ ·) ?_
      rw [List.singleton_append]
      refine congrArg (r.chunk_id :: ·) (firstDedup_congr _ _ _ ?_)
      intro x
      simp [List.mem_append, List.mem_cons, or_comm]

theorem dn_fold_keys (wd : ℚ) :
    ∀ (rs : List SearchResult) (st : List (String × ℚ) × List (String × SearchResult)),
      ((rs.foldl (fun st r =>
        if dictMem st.1 r.chunk_id then
          (dictAddQ st.1 r.chunk_id ((r.normalized_score.getD 0) * wd),
           dictUpd st.2 r.chunk_id (fun c => { c with dense_score := some r.score }))
        else
          (dictSet st.1 r.chunk_id ((r.normalized_score.getD 0) * wd),
           dictSet st.2 r.chunk_id { r with bm25_score := some 0, dense_score := some r.score }))
        st).1).map Prod.fst =
      st.1.map Prod.fst ++ firstDedup (st.1.map Prod.fst) (rs.map (·.chunk_id)) := by
  intro rs
  induction rs with
  | nil => intro st; simp [firstDedup]
  | cons r rest ih =>
    intro st
    rw [List.foldl_cons, List.map_cons]
    by_cases hm : r.chunk_id ∈ st.1.map Prod.fst
    · have hd : dictMem st.1 r.chunk_id = true := (dictMem_iff _ _).mpr hm
      rw [if_pos hd, ih]
      simp only [dictAddQ_keys, firstDedup, if_pos hm]
    · have hd : ¬dictMem st.1 r.chunk_id = true := fun h => hm ((dictMem_iff _ _).mp h)
      rw [if_neg hd, ih]
      simp only [dictSet_keys, if_neg hm, firstDedup, if_neg hm]
      rw [List.append_assoc]
      refine congrArg (st.1.map Prod.fst ++ ·) ?_
      rw [List.singleton_append]
      refine congrArg (r.chunk_id :: ·) (firstDedup_congr _ _ _ ?_)
      intro x
      simp [List.mem_append, List.mem_cons, or_comm]

theorem normalize_chunk_ids (rs : List SearchResult) (m : ℚ) :
    (normalize_scores rs m).map (·.chunk_id) = rs.map (·.chunk_id) := by
  have h := congrArg (List.map Prod.fst) (normalize_scores_core rs m)
  simpa [List.map_map, Function.comp] using h

theorem combinedKeys_eq (wb wd : ℚ) (bm dn : List SearchResult) :
    combinedKeys wb wd bm dn =
      firstDedup [] (bm.map (·.chunk_id)) ++
        firstDedup (bm.map (·.chunk_id)) (dn.map (·.chunk_id)) := by
  unfold combinedKeys combineMaps
  dsimp only
  rw [dn_fold_keys, bm_fold_keys]
  simp only [List.map_nil, List.nil_append, normalize_chunk_ids]
  refine congrArg (firstDedup [] (bm.map (·.chunk_id)) ++ ·) (firstDedup_congr _ _ _ ?_)
  intro x
  rw [mem_firstDedup]
  simp

/-! ### First-appearance position lemmas -/

theorem keyPos_cons (k x : String) (xs : List String) :
    keyPos k (x :: xs) = if x = k then 0 else keyPos k xs + 1 := rfl

theorem pairwise_keyPos {β : Type} :
    ∀ (l : List (String × β)), (l.map Prod.fst).Nodup →
      l.Pairwise (fun a b =>
        keyPos a.1 (l.map Prod.fst) < keyPos b.1 (l.map Prod.fst)) := by
  intro l
  induction l with
  | nil => intro _; exact List.Pairwise.nil
  | cons p rest ih =>
    intro hnd
    rw [List.map_cons] at hnd
    rcases List.nodup_cons.mp hnd with ⟨hp, hrest⟩
    refine List.pairwise_cons.mpr ⟨?_, ?_⟩
    · intro b hb
      have hb1 : b.1 ∈ rest.map Prod.fst := List.mem_map_of_mem Prod.fst hb
      have hne : p.1 ≠ b.1 := fun he => hp (he ▸ hb1)
      rw [List.map_cons, keyPos_cons, keyPos_cons, if_pos rfl, if_neg hne]
      omega
    · refine (ih hrest).imp_of_mem ?_
      intro a b ha hb hlt
      have ha1 : p.1 ≠ a.1 := fun he => hp (he ▸ List.mem_map_of_mem Prod.fst ha)
      have hb1 : p.1 ≠ b.1 := fun he => hp (he ▸ List.mem_map_of_mem Prod.fst hb)
      rw [List.map_cons, keyPos_cons, keyPos_cons, if_neg ha1, if_neg hb1]
      omega

/-! ### C3 and C10 -/

/-- C3. The fused list is sorted by accumulated score in descending order;
    its length is at most `final_top_k`; ties are broken by order of first
    appearance in the accumulation dict (`keyPos` in `combinedKeys`), whose
    key order is: lexical chunk ids in first-appearance order, then
    dense-only chunk ids in first-appearance order — so a lexical-sourced
    chunk precedes any dense-only chunk with an equal fused score. -/
theorem combine_sorted_ties_topk (wb wd : ℚ) (k : Nat) (bm dn : List SearchResult) :
    (combine_results wb wd k bm dn).Pairwise (fun x y => y.score ≤ x.score) ∧
    (combine_results wb wd k bm dn).length ≤ k ∧
    (combine_results wb wd k bm dn).Pairwise (fun x y => x.score = y.score →
      keyPos x.chunk_id (combinedKeys wb wd bm dn) <
        keyPos y.chunk_id (combinedKeys wb wd bm dn)) ∧
    combinedKeys wb wd bm dn =
      firstDedup [] (bm.map (·.chunk_id)) ++
        firstDedup (bm.map (·.chunk_id)) (dn.map (·.chunk_id)) := by
  obtain ⟨hlock, hnd, hid, _⟩ :=
    combineMaps_inv wb wd (normalize_scores bm 1) (normalize_scores dn 1)
  have hout : combine_results wb wd k bm dn =
      ((sortByDesc Prod.snd
          (combineMaps wb wd (normalize_scores bm 1) (normalize_scores dn 1)).1).take k).map
        (fun p =>
          { dictGetD (combineMaps wb wd (normalize_scores bm 1) (normalize_scores dn 1)).2
              p.1 (mkResult p.1 0) with
            score := p.2, hybrid_score := some p.2 }) := rfl
  rw [hout]
  refine ⟨?_, ?_, ?_, combinedKeys_eq wb wd bm dn⟩
  · refine List.pairwise_map.mpr ?_
    exact ((sortByDesc_sorted Prod.snd _).sublist (List.take_sublist k _)).imp (fun h => h)
  · rw [List.length_map, List.length_take]
    exact min_le_left _ _
  · refine List.pairwise_map.mpr ?_
    have h0 := pairwise_keyPos _ hnd
    have h1 := h0.imp (fun {a b} h => (fun (_ : Prod.snd a = Prod.snd b) => h))
    have h2 := sortByDesc_pairwise_tie Prod.snd _ _ h1
    have h3 := h2.sublist (List.take_sublist k _)
    refine h3.imp_of_mem ?_
    intro a b ha hb himp he
    have hmem : ∀ {p : String × ℚ},
        p ∈ (sortByDesc Prod.snd
          (combineMaps wb wd (normalize_scores bm 1) (normalize_scores dn 1)).1).take k →
        p.1 ∈ (combineMaps wb wd (normalize_scores bm 1) (normalize_scores dn 1)).2.map
          Prod.fst := by
      intro p hp
      have hp1 : p ∈ (combineMaps wb wd (normalize_scores bm 1) (normalize_scores dn 1)).1 :=
        ((sortByDesc_perm Prod.snd _).mem_iff).mp ((List.take_sublist k _).subset hp)
      rw [← hlock]
      exact List.mem_map_of_mem Prod.fst hp1
    have hga := dictGetD_chunk_id hid (hmem ha) (mkResult a.1 0)
    have hgb := dictGetD_chunk_id hid (hmem hb) (mkResult b.1 0)
    show keyPos _ (combinedKeys wb wd bm dn) < keyPos _ (combinedKeys wb wd bm dn)
    rw [show ({ dictGetD (combineMaps wb wd (normalize_scores bm 1) (normalize_scores dn 1)).2
        a.1 (mkResult a.1 0) with score := a.2, hybrid_score := some a.2 } :
        SearchResult).chunk_id =
        (dictGetD (combineMaps wb wd (normalize_scores bm 1) (normalize_scores dn 1)).2
          a.1 (mkResult a.1 0)).chunk_id from rfl, hga]
    rw [show ({ dictGetD (combineMaps wb wd (normalize_scores bm 1) (normalize_scores dn 1)).2
        b.1 (mkResult b.1 0) with score := b.2, hybrid_score := some b.2 } :
        SearchResult).chunk_id =
        (dictGetD (combineMaps wb wd (normalize_scores bm 1) (normalize_scores dn 1)).2
          b.1 (mkResult b.1 0)).chunk_id from rfl, hgb]
    exact himp he

/-- Witness for C3 at the concrete fusion scenario of the spec. -/
theorem combine_sorted_ties_topk_witness :
    (combine_results (3 / 10) (7 / 10) 10
      [mkResult "a" 10] [mkResult "b" (9 / 10)]).length ≤ 10 :=
  (combine_sorted_ties_topk (3 / 10) (7 / 10) 10
    [mkResult "a" 10] [mkResult "b" (9 / 10)]).2.1

/-- C10. Fusion is frame-safe on its inputs: normalization changes only the
    `normalized_score` key of each input dict (chunk id, `score` and every
    other tracked key are pointwise unchanged); every dict tracked in
    `chunk_data` — the post-call state of the input dicts, which the two
    loops mutate in place — still carries the `score` (and `hybrid_score`)
    of an input result; and every returned result is a fresh copy of a
    tracked dict differing from it only in `score`/`hybrid_score`. -/
theorem combine_preserves_input_scores (wb wd : ℚ) (k : Nat) (bm dn : List SearchResult) :
    ((normalize_scores bm 1).map resultNoNorm = bm.map resultNoNorm ∧
     (normalize_scores dn 1).map resultNoNorm = dn.map resultNoNorm) ∧
    (∀ p ∈ (combineMaps wb wd (normalize_scores bm 1) (normalize_scores dn 1)).2,
      ∃ r ∈ bm ++ dn, p.2.chunk_id = r.chunk_id ∧ p.2.score = r.score ∧
        p.2.hybrid_score = r.hybrid_score) ∧
    (∀ res ∈ combine_results wb wd k bm dn,
      ∃ v, (res.chunk_id, v) ∈
          (combineMaps wb wd (normalize_scores bm 1) (normalize_scores dn 1)).2 ∧
        res = { v with score := res.score, hybrid_score := some res.score }) := by
  obtain ⟨hlock, _, hid, hor⟩ :=
    combineMaps_inv wb wd (normalize_scores bm 1) (normalize_scores dn 1)
  refine ⟨⟨normalize_scores_core bm 1, normalize_scores_core dn 1⟩, ?_, ?_⟩
  · intro p hp
    rcases hor p hp with ⟨r', hr', ha, hb, hc⟩
    rcases List.mem_append.mp hr' with h | h
    · have hmem : resultNoNorm r' ∈ (normalize_scores bm 1).map resultNoNorm :=
        List.mem_map_of_mem resultNoNorm h
      rw [normalize_scores_core] at hmem
      rcases List.mem_map.mp hmem with ⟨r, hr, hres⟩
      simp only [resultNoNorm, Prod.mk.injEq] at hres
      obtain ⟨h1, h2, _, _, h5⟩ := hres
      exact ⟨r, List.mem_append_left _ hr, by rw [ha, ← h1], by rw [hb, ← h2],
        by rw [hc, ← h5]⟩
    · have hmem : resultNoNorm r' ∈ (normalize_scores dn 1).map resultNoNorm :=
        List.mem_map_of_mem resultNoNorm h
      rw [normalize_scores_core] at hmem
      rcases List.mem_map.mp hmem with ⟨r, hr, hres⟩
      simp only [resultNoNorm, Prod.mk.injEq] at hres
      obtain ⟨h1, h2, _, _, h5⟩ := hres
      exact ⟨r, List.mem_append_right _ hr, by rw [ha, ← h1], by rw [hb, ← h2],
        by rw [hc, ← h5]⟩
  · intro res hres
    have hout : combine_results wb wd k bm dn =
        ((sortByDesc Prod.snd
            (combineMaps wb wd (normalize_scores bm 1) (normalize_scores dn 1)).1).take k).map
          (fun p =>
            { dictGetD (combineMaps wb wd (normalize_scores bm 1) (normalize_scores dn 1)).2
                p.1 (mkResult p.1 0) with
              score := p.2, hybrid_score := some p.2 }) := rfl
    rw [hout] at hres
    rcases List.mem_map.mp hres with ⟨p, hp, rfl⟩
    have hp1 : p ∈ (combineMaps wb wd (normalize_scores bm 1) (normalize_scores dn 1)).1 :=
      ((sortByDesc_perm Prod.snd _).mem_iff).mp ((List.take_sublist k _).subset hp)
    have hkey : p.1 ∈
        (combineMaps wb wd (normalize_scores bm 1) (normalize_scores dn 1)).2.map Prod.fst := by
      rw [← hlock]; exact List.mem_map_of_mem Prod.fst hp1
    refine ⟨dictGetD (combineMaps wb wd (normalize_scores bm 1) (normalize_scores dn 1)).2
      p.1 (mkResult p.1 0), ?_, rfl⟩
    have hcid := dictGetD_chunk_id hid hkey (mkResult p.1 0)
    show (_, _) ∈ _
    rw [show ({ dictGetD (combineMaps wb wd (normalize_scores bm 1) (normalize_scores dn 1)).2
        p.1 (mkResult p.1 0) with score := p.2, hybrid_score := some p.2 } :
        SearchResult).chunk_id =
        (dictGetD (combineMaps wb wd (normalize_scores bm 1) (normalize_scores dn 1)).2
          p.1 (mkResult p.1 0)).chunk_id from rfl, hcid]
    exact dictGetD_self_mem hkey (mkResult p.1 0)

/-- Witness for C10 at the concrete fusion scenario of the spec. -/
theorem combine_preserves_input_scores_witness :
    (normalize_scores [mkResult "a" 10] 1).map resultNoNorm =
      [mkResult "a" 10].map resultNoNorm :=
  (combine_preserves_input_scores (3 / 10) (7 / 10) 10
    [mkResult "a" 10] [mkResult "b" (9 / 10)]).1.1

/-! ### C1 — rule-based reranker -/

/-- C1 (amended). For `existence`/`feature_inquiry` questions the reranker
    multiplies a chunk's score by 2.5 when it is detected as an existing
    feature and also carries roadmap markers, by 2.0 when detected as an
    existing feature only, by 1.5 when it carries roadmap markers only, and
    by 1 otherwise — the 0.3 factor of the source is in an unreachable
    branch and is never applied — all times the category boost; the output
    is the stable descending sort of the rescored chunks, so a chunk
    strictly outscored under these factors never precedes the other. -/
theorem reranker_existence_rules (chunks : List RChunk) (question question_type : String)
    (hqt : question_type = "existence" ∨ question_type = "feature_inquiry") :
    (semantic_reranker_with_rules chunks question question_type).Perm
      (chunks.map (applyRules question question_type)) ∧
    (semantic_reranker_with_rules chunks question question_type).Pairwise
      (fun x y => y.reranked_score ≤ x.reranked_score) ∧
    (∀ c ∈ chunks,
      (applyRules question question_type c).reranked_score =
        c.score *
          (if detect_existing_feature (lowerStr c.text) (lowerStr question) = true ∧
              anyIn roadmapMarkersRR (lowerStr c.text) = true then 5 / 2
           else if detect_existing_feature (lowerStr c.text) (lowerStr question) = true then 2
           else if anyIn roadmapMarkersRR (lowerStr c.text) = true then 3 / 2
           else 1) *
          get_category_boost (lowerStr c.text) (lowerStr question) question_type) := by
  refine ⟨sortByDesc_perm _ _, sortByDesc_sorted _ _, ?_⟩
  intro c _
  unfold applyRules
  dsimp only
  rcases hqt with rfl | rfl
  · rw [if_pos (Or.inl rfl), if_neg (by simp), if_neg (by simp), if_neg (by simp)]
    by_cases he : detect_existing_feature (lowerStr c.text) (lowerStr question) = true
    · by_cases hr : anyIn roadmapMarkersRR (lowerStr c.text) = true
      · simp [he, hr]
      · simp [he, hr]
    · by_cases hr : anyIn roadmapMarkersRR (lowerStr c.text) = true
      · simp [he, hr]
      · simp [he, hr]
  · rw [if_pos (Or.inr rfl), if_neg (by simp), if_neg (by simp), if_neg (by simp)]
    by_cases he : detect_existing_feature (lowerStr c.text) (lowerStr question) = true
    · by_cases hr : anyIn roadmapMarkersRR (lowerStr c.text) = true
      · simp [he, hr]
      · simp [he, hr]
    · by_cases hr : anyIn roadmapMarkersRR (lowerStr c.text) = true
      · simp [he, hr]
      · simp [he, hr]

/-- Witness for the amended C1 theorem at a concrete existence question. -/
theorem reranker_existence_rules_witness :
    (semantic_reranker_with_rules [mkRChunk "slack" 1] "slack?" "existence").Pairwise
      (fun x y => y.reranked_score ≤ x.reranked_score) :=
  (reranker_existence_rules [mkRChunk "slack" 1] "slack?" "existence" (Or.inl rfl)).2.1

/-- C1 counterexample: for the existence question `"slack?"`, the chunk
    `"slack"` is detected as an existing feature (factor 2.0) while
    `"roadmap: slack q3"` is roadmap-only — yet its score is multiplied by
    1.5, not 0.3, and with base scores 1 vs 2 the roadmap chunk outranks the
    existing-feature chunk (4.5 vs 3 after the shared 1.5 category boost). -/
theorem reranker_roadmap_counterexample :
    (semantic_reranker_with_rules
        [mkRChunk "slack" 1, mkRChunk "roadmap: slack q3" 2] "slack?" "existence").map
      (fun c => (c.text, c.reranked_score)) =
      [("roadmap: slack q3", 9 / 2), ("slack", 3)] ∧
    (9 : ℚ) / 2 ≠ 2 * (3 / 10) := by
  have he1 : detect_existing_feature (lowerStr "slack") (lowerStr "slack?") = true := by decide
  have he2 : detect_existing_feature (lowerStr "roadmap: slack q3") (lowerStr "slack?") =
      false := by decide
  have hr1 : anyIn roadmapMarkersRR (lowerStr "slack") = false := by decide
  have hr2 : anyIn roadmapMarkersRR (lowerStr "roadmap: slack q3") = true := by decide
  have hb1 : get_category_boost (lowerStr "slack") (lowerStr "slack?") "existence" =
      15 / 10 := rfl
  have hb2 : get_category_boost (lowerStr "roadmap: slack q3") (lowerStr "slack?")
      "existence" = 15 / 10 := rfl
  constructor
  · simp only [semantic_reranker_with_rules, List.map_cons, List.map_nil]
    rw [show applyRules "slack?" "existence" (mkRChunk "slack" 1) =
        { text := "slack", score := 1, reranked_score := 1 * 2 * (15 / 10),
          original_score := 1 } by
      unfold applyRules mkRChunk
      dsimp only
      rw [if_pos (Or.inl rfl), hb1, if_neg (by simp), if_neg (by simp), if_neg (by simp)]
      simp [he1, hr1]]
    rw [show applyRules "slack?" "existence" (mkRChunk "roadmap: slack q3" 2) =
        { text := "roadmap: slack q3", score := 2, reranked_score := 2 * (3 / 2) * (15 / 10),
          original_score := 2 } by
      unfold applyRules mkRChunk
      dsimp only
      rw [if_pos (Or.inl rfl), hb2, if_neg (by simp), if_neg (by simp), if_neg (by simp)]
      simp [he2, hr2]]
    norm_num [sortByDesc, insertByDesc]
  · norm_num

/-! ### C6 — bounded context assembly -/

theorem formatParts_spec (maxLen : Nat) :
    ∀ (rs : List LlmResult) (total : Nat),
      formatParts maxLen total rs =
        (rs.take (formatParts maxLen total rs).length).map contextChunk ∧
      (formatParts maxLen total rs = [] ∨
        total + sumLen (formatParts maxLen total rs) ≤ maxLen) ∧
      (∀ r0, rs[(formatParts maxLen total rs).length]? = some r0 →
        maxLen < total + sumLen (formatParts maxLen total rs) + (contextChunk r0).length) := by
  intro rs
  induction rs with
  | nil =>
    intro total
    refine ⟨rfl, Or.inl rfl, ?_⟩
    intro r0 h
    simp at h
  | cons r rest ih =>
    intro total
    by_cases hov : maxLen < total + (contextChunk r).length
    · have hp : formatParts maxLen total (r :: rest) = [] := by
        simp [formatParts, hov]
      refine ⟨by simp [hp], Or.inl hp, ?_⟩
      intro r0 h0
      rw [hp] at h0 ⊢
      simp only [List.length_nil, List.getElem?_cons_zero, Option.some.injEq] at h0
      subst h0
      simp only [sumLen, List.map_nil, List.sum_nil]
      omega
    · have hp : formatParts maxLen total (r :: rest) =
          contextChunk r :: formatParts maxLen (total + (contextChunk r).length) rest := by
        simp [formatParts, hov]
      obtain ⟨ih1, ih2, ih3⟩ := ih (total + (contextChunk r).length)
      refine ⟨?_, ?_, ?_⟩
      · rw [hp, List.length_cons, List.take_succ_cons, List.map_cons]
        exact congrArg (contextChunk r :: ·) ih1
      · rw [hp]
        right
        rcases ih2 with h | h
        · rw [h]
          simp only [sumLen, List.map_cons, List.map_nil, List.sum_cons, List.sum_nil]
          omega
        · simp only [sumLen, List.map_cons, List.sum_cons] at h ⊢
          omega
      · intro r0 h0
        rw [hp] at h0 ⊢
        rw [List.length_cons, List.getElem?_cons_succ] at h0
        have := ih3 r0 h0
        simp only [sumLen, List.map_cons, List.sum_cons] at this ⊢
        omega

/-- C6. The context is built from whole formatted chunks of a prefix of the
    ranked results (no chunk is truncated); the total length of the included
    chunks never exceeds `max_context_length`; the first excluded result, if
    any, is exactly the one whose formatted chunk would overflow the budget;
    and `format_context` is the newline-join of those parts. -/
theorem format_context_whole_parts (maxLen : Nat) (results : List LlmResult) :
    formatParts maxLen 0 results =
      (results.take (formatParts maxLen 0 results).length).map contextChunk ∧
    sumLen (formatParts maxLen 0 results) ≤ maxLen ∧
    (∀ r0, results[(formatParts maxLen 0 results).length]? = some r0 →
      maxLen < sumLen (formatParts maxLen 0 results) + (contextChunk r0).length) ∧
    format_context maxLen results = String.intercalate "\n" (formatParts maxLen 0 results) := by
  obtain ⟨h1, h2, h3⟩ := formatParts_spec maxLen results 0
  refine ⟨h1, ?_, ?_, ?_⟩
  · rcases h2 with h | h
    · rw [h]; simp [sumLen]
    · omega
  · intro r0 h0
    have := h3 r0 h0
    omega
  · unfold format_context
    by_cases h : results = []
    · subst h; rfl
    · rw [if_neg h]

/-- Witness for C6 at a concrete result list and budget. -/
theorem format_context_whole_parts_witness :
    sumLen (formatParts 100 0
      [{ chunk_id := some "c1", text := " hello ", score := 1,
         metadata := { doc_title := some "T", source := some "s.txt",
                       page := some 2, section_ := none } }]) ≤ 100 :=
  (format_context_whole_parts 100
    [{ chunk_id := some "c1", text := " hello ", score := 1,
       metadata := { doc_title := some "T", source := some "s.txt",
                     page := some 2, section_ := none } }]).2.1

/-! ### C8 — citation deduplication -/

theorem dedupCitationsGo_sublist :
    ∀ (cs : List Citation) (seen : List (String × Option Int)),
      List.Sublist (dedupCitationsGo seen cs) cs := by
  intro cs
  induction cs with
  | nil => intro seen; exact List.Sublist.refl _
  | cons c rest ih =>
    intro seen
    by_cases h : (c.source, c.page) ∈ seen
    · simp only [dedupCitationsGo, if_pos h]
      exact (ih seen).cons c
    · simp only [dedupCitationsGo, if_neg h]
      exact (ih _).cons₂ c

theorem dedupCitationsGo_not_seen :
    ∀ (cs : List Citation) (seen : List (String × Option Int)) (c : Citation),
      c ∈ dedupCitationsGo seen cs → citKey c ∉ seen := by
  intro cs
  induction cs with
  | nil => intro seen c hc; simp [dedupCitationsGo] at hc
  | cons e rest ih =>
    intro seen c hc
    by_cases h : (e.source, e.page) ∈ seen
    · rw [dedupCitationsGo, if_pos h] at hc
      exact ih seen c hc
    · rw [dedupCitationsGo, if_neg h] at hc
      rcases List.mem_cons.mp hc with rfl | hc'
      · exact h
      · intro habs
        exact ih _ c hc' (List.mem_cons_of_mem _ habs)

theorem dedupCitationsGo_pairwise :
    ∀ (cs : List Citation) (seen : List (String × Option Int)),
      (dedupCitationsGo seen cs).Pairwise (fun a b => citKey a ≠ citKey b) := by
  intro cs
  induction cs with
  | nil => intro seen; exact List.Pairwise.nil
  | cons e rest ih =>
    intro seen
    by_cases h : (e.source, e.page) ∈ seen
    · rw [dedupCitationsGo, if_pos h]
      exact ih seen
    · rw [dedupCitationsGo, if_neg h]
      refine List.pairwise_cons.mpr ⟨?_, ih _⟩
      intro b hb habs
      exact dedupCitationsGo_not_seen rest _ b hb
        (habs ▸ List.mem_cons_self (citKey e) seen)

theorem dedupCitationsGo_find :
    ∀ (cs : List Citation) (seen : List (String × Option Int)) (c : Citation),
      c ∈ dedupCitationsGo seen cs →
      cs.find? (fun d => decide (citKey d = citKey c)) = some c := by
  intro cs
  induction cs with
  | nil => intro seen c hc; simp [dedupCitationsGo] at hc
  | cons e rest ih =>
    intro seen c hc
    by_cases h : (e.source, e.page) ∈ seen
    · rw [dedupCitationsGo, if_pos h] at hc
      have hne : citKey e ≠ citKey c := by
        intro habs
        exact dedupCitationsGo_not_seen rest seen c hc (habs ▸ h)
      rw [List.find?_cons_of_neg _ (by simpa using hne)]
      exact ih seen c hc
    · rw [dedupCitationsGo, if_neg h] at hc
      rcases List.mem_cons.mp hc with rfl | hc'
      · exact List.find?_cons_of_pos _ (by simp)
      · have hne : citKey e ≠ citKey c := by
          intro habs
          exact dedupCitationsGo_not_seen rest _ c hc'
            (habs ▸ List.mem_cons_self (citKey e) seen)
        rw [List.find?_cons_of_neg _ (by simpa using hne)]
        exact ih _ c hc'

theorem dedupCitationsGo_complete :
    ∀ (cs : List Citation) (seen : List (String × Option Int)) (d : Citation),
      d ∈ cs → citKey d ∉ seen →
      ∃ c ∈ dedupCitationsGo seen cs, citKey c = citKey d := by
  intro cs
  induction cs with
  | nil => intro seen d hd _; simp at hd
  | cons e rest ih =>
    intro seen d hd hns
    by_cases h : (e.source, e.page) ∈ seen
    · rw [dedupCitationsGo, if_pos h]
      rcases List.mem_cons.mp hd with rfl | hd'
      · exact absurd h hns
      · exact ih seen d hd' hns
    · rw [dedupCitationsGo, if_neg h]
      rcases List.mem_cons.mp hd with rfl | hd'
      · exact ⟨d, List.mem_cons_self d _, rfl⟩
      · by_cases hk : citKey d = citKey e
        · exact ⟨e, List.mem_cons_self e _, hk.symm⟩
        · have hns' : citKey d ∉ (citKey e :: seen) := by
            intro habs
            rcases List.mem_cons.mp habs with h1 | h1
            · exact hk h1
            · exact hns h1
          rcases ih _ d hd' hns' with ⟨c, hc, hck⟩
          exact ⟨c, List.mem_cons_of_mem e hc, hck⟩

/-- C8. The citation list built by `generate_response` contains at most one
    citation per `(source, page)` pair; it is a subsequence of the citations
    of the results in rank order; each kept citation is the first citation
    (in rank order) carrying its `(source, page)` pair; and every result's
    pair is represented.  In the generating branch the returned citations
    are exactly this deduplicated list. -/
theorem citations_dedup_by_source_page (results : List LlmResult) :
    (uniqueCitations results).Pairwise (fun a b => citKey a ≠ citKey b) ∧
    List.Sublist (uniqueCitations results) (results.map mkCitation) ∧
    (∀ c ∈ uniqueCitations results,
      (results.map mkCitation).find? (fun d => decide (citKey d = citKey c)) = some c) ∧
    (∀ d ∈ results.map mkCitation, ∃ c ∈ uniqueCitations results, citKey c = citKey d) ∧
    (∀ (modelName : String) (maxLen : Nat) (gen : String → String) (tGen tTotal : ℚ)
      (question : String), format_context maxLen results ≠ "" →
      (generate_response modelName maxLen gen tGen tTotal question results).citations =
        uniqueCitations results) := by
  refine ⟨dedupCitationsGo_pairwise _ [], dedupCitationsGo_sublist _ [],
    fun c hc => dedupCitationsGo_find _ [] c hc,
    fun d hd => dedupCitationsGo_complete _ [] d hd (List.not_mem_nil _), ?_⟩
  intro modelName maxLen gen tGen tTotal question hctx
  unfold generate_response
  rw [if_neg hctx]

/-- Witness for C8 at a concrete one-result list. -/
theorem citations_dedup_witness :
    (uniqueCitations
      [{ chunk_id := some "c1", text := "t", score := 1,
         metadata := { doc_title := some "T", source := some "s.txt",
                       page := some 2, section_ := none } }]).Pairwise
      (fun a b => citKey a ≠ citKey b) :=
  (citations_dedup_by_source_page
    [{ chunk_id := some "c1", text := "t", score := 1,
       metadata := { doc_title := some "T", source := some "s.txt",
                     page := some 2, section_ := none } }]).1

/-! ### C7 — insufficient-data answer paths -/

/-- C7 (amended).  Zero search results: both the services pipeline and the
    demo endpoint return their fixed no-data message with empty citations,
    skip generation (the response does not depend on the generator), and
    hardcode `generation_time_ms = 0` in the debug payload.  Results whose
    context formats to the empty string: `generate_response` returns the
    fixed insufficient-data answer with empty citations and skips the
    generate call, but its `generation_info` carries no `generation_time_ms`
    key at all (`none`), rather than the value 0. -/
theorem insufficient_data_paths (modelName : String) (maxLen : Nat)
    (rerank : List LlmResult → List LlmResult) (gen gen' : String → String)
    (rerankTime genTime totalTime tGen tTotal : ℚ) (question : String) :
    ((process_question modelName maxLen rerank gen rerankTime genTime totalTime tGen tTotal
        question []).answer = "Не найдено релевантных документов для ответа на ваш вопрос." ∧
     (process_question modelName maxLen rerank gen rerankTime genTime totalTime tGen tTotal
        question []).citations = [] ∧
     (process_question modelName maxLen rerank gen rerankTime genTime totalTime tGen tTotal
        question []).debug.generation_time_ms = 0 ∧
     process_question modelName maxLen rerank gen rerankTime genTime totalTime tGen tTotal
        question [] =
       process_question modelName maxLen rerank gen' rerankTime genTime totalTime tGen tTotal
        question []) ∧
    (∀ (genAnswer : String → List DemoChunk → String) (searchTime genTime2 : ℚ),
      (ask_question_core genAnswer searchTime genTime2 question []).answer =
        "К сожалению, я не нашел релевантной информации для ответа на ваш вопрос в загруженных документах." ∧
      (ask_question_core genAnswer searchTime genTime2 question []).citations = [] ∧
      (ask_question_core genAnswer searchTime genTime2 question []).debug.generation_time_ms = 0) ∧
    (∀ (rs : List LlmResult), format_context maxLen rs = "" →
      (generate_response modelName maxLen gen tGen tTotal question rs).answer =
        "Недостаточно данных для точного ответа." ∧
      (generate_response modelName maxLen gen tGen tTotal question rs).citations = [] ∧
      (generate_response modelName maxLen gen tGen tTotal question rs).generation_info.generation_time_ms = none ∧
      generate_response modelName maxLen gen tGen tTotal question rs =
        generate_response modelName maxLen gen' tGen tTotal question rs) := by
  refine ⟨⟨rfl, rfl, rfl, rfl⟩, fun genAnswer searchTime genTime2 => ⟨rfl, rfl, rfl⟩, ?_⟩
  intro rs hctx
  unfold generate_response
  rw [hctx]
  exact ⟨rfl, rfl, rfl, rfl⟩

/-- Witness for the amended C7 theorem: a result whose formatted chunk cannot
    fit a zero-length context budget. -/
theorem insufficient_data_witness :
    (generate_response "m" 0 (fun _ => "X") 5 6 "q"
        [⟨some "c1", "text", 1, ⟨none, none, none, none⟩⟩]).citations = [] :=
  ((insufficient_data_paths "m" 0 id (fun _ => "X") (fun _ => "Y") 3 7 9 5 6 "q").2.2
    [⟨some "c1", "text", 1, ⟨none, none, none, none⟩⟩] (by decide)).2.1

/-- C7 counterexample: with one search result and a zero context budget the
    context is empty, the fixed insufficient-data answer is returned with no
    citations — but the pipeline debug's `generation_time_ms` is the measured
    duration of the (skipped) generation stage (here 7), not 0, and the
    `generation_info` of `generate_response` carries no `generation_time_ms`
    key at all. -/
theorem generation_time_counterexample :
    (process_question "m" 0 id (fun _ => "X") 3 7 9 5 6 "q"
        [⟨some "c1", "text", 1, ⟨none, none, none, none⟩⟩]).answer =
      "Недостаточно данных для точного ответа." ∧
    (process_question "m" 0 id (fun _ => "X") 3 7 9 5 6 "q"
        [⟨some "c1", "text", 1, ⟨none, none, none, none⟩⟩]).citations = [] ∧
    (process_question "m" 0 id (fun _ => "X") 3 7 9 5 6 "q"
        [⟨some "c1", "text", 1, ⟨none, none, none, none⟩⟩]).debug.generation_time_ms = 7 ∧
    ¬(process_question "m" 0 id (fun _ => "X") 3 7 9 5 6 "q"
        [⟨some "c1", "text", 1, ⟨none, none, none, none⟩⟩]).debug.generation_time_ms = 0 ∧
    (generate_response "m" 0 (fun _ => "X") 5 6 "q"
        [⟨some "c1", "text", 1, ⟨none, none, none, none⟩⟩]).generation_info.generation_time_ms =
      none := by
  refine ⟨?_, ?_, ?_, ?_, ?_⟩
  · decide
  · decide
  · decide
  · decide
  · decide

/-! ### C9 — word-splitting lemmas -/

theorem splitWords_nil : splitWords [] = [] := rfl

theorem splitWords_cons_ws {c : Char} (h : wsp c = true) (cs : List Char) :
    splitWords (c :: cs) = splitWords cs := by
  simp [splitWords, splitWordsAux, h]

theorem splitWordsAux_ne_nil :
    ∀ (l acc : List Char), acc ≠ [] → splitWordsAux l acc ≠ [] := by
  intro l
  induction l with
  | nil => intro acc h; simp [splitWordsAux, h]
  | cons c cs ih =>
    intro acc h
    by_cases hc : wsp c
    · simp only [splitWordsAux, hc, if_pos rfl, if_neg h]
      exact List.cons_ne_nil _ _
    · simp only [splitWordsAux, hc, Bool.false_eq_true, if_false]
      exact ih (c :: acc) (List.cons_ne_nil c acc)

theorem splitWordsAux_append_ws {c : Char} (hc : wsp c = true) (b : List Char) :
    ∀ (a acc : List Char),
      splitWordsAux (a ++ c :: b) acc = splitWordsAux a acc ++ splitWords b := by
  intro a
  induction a with
  | nil =>
    intro acc
    by_cases h : acc = []
    · simp [splitWordsAux, hc, h, splitWords]
    · simp [splitWordsAux, hc, h, splitWords]
  | cons d a' ih =>
    intro acc
    by_cases hd : wsp d
    · by_cases h : acc = []
      · simp [splitWordsAux, hd, h, ih []]
      · simp [splitWordsAux, hd, h, ih []]
    · simp [splitWordsAux, hd, ih (d :: acc)]

theorem splitWords_append_ws {c : Char} (hc : wsp c = true) (a b : List Char) :
    splitWords (a ++ c :: b) = splitWords a ++ splitWords b :=
  splitWordsAux_append_ws hc b a []

theorem splitWordsAux_noWS :
    ∀ (w acc : List Char), (∀ c ∈ w, wsp c = false) →
      splitWordsAux w acc = if acc.reverse ++ w = [] then [] else [acc.reverse ++ w] := by
  intro w
  induction w with
  | nil =>
    intro acc _
    by_cases h : acc = []
    · simp [splitWordsAux, h]
    · have : acc.reverse ≠ [] := by simpa using h
      simp [splitWordsAux, h, this]
  | cons c cs ih =>
    intro acc hall
    have hc : wsp c = false := hall c (List.mem_cons_self c cs)
    simp only [splitWordsAux, hc, Bool.false_eq_true, if_false]
    rw [ih (c :: acc) (fun x hx => hall x (List.mem_cons_of_mem c hx))]
    simp

theorem splitWords_single {w : List Char} (hne : w ≠ [])
    (hall : ∀ c ∈ w, wsp c = false) : splitWords w = [w] := by
  rw [splitWords, splitWordsAux_noWS w [] hall]
  simp [hne]

theorem splitWords_all_ws : ∀ (l : List Char), (∀ c ∈ l, wsp c = true) →
    splitWords l = [] := by
  intro l
  induction l with
  | nil => intro _; rfl
  | cons c cs ih =>
    intro h
    rw [splitWords_cons_ws (h c (List.mem_cons_self c cs))]
    exact ih (fun x hx => h x (List.mem_cons_of_mem c hx))

theorem splitWords_eq_nil_all_ws : ∀ (l : List Char), splitWords l = [] →
    ∀ c ∈ l, wsp c = true := by
  intro l
  induction l with
  | nil => intro _ c hc; simp at hc
  | cons d cs ih =>
    intro h c hc
    by_cases hd : wsp d
    · rw [splitWords_cons_ws hd] at h
      rcases List.mem_cons.mp hc with rfl | hc'
      · exact hd
      · exact ih h c hc'
    · exfalso
      have : splitWords (d :: cs) ≠ [] := by
        simp only [splitWords, splitWordsAux, hd, Bool.false_eq_true, if_false]
        exact splitWordsAux_ne_nil cs [d] (List.cons_ne_nil d [])
      exact this h

theorem splitWords_good : ∀ (l : List Char), GoodWords (splitWords l) := by
  have haux : ∀ (l acc : List Char), (∀ c ∈ acc, wsp c = false) →
      GoodWords (splitWordsAux l acc) := by
    intro l
    induction l with
    | nil =>
      intro acc hacc
      by_cases h : acc = []
      · simp [splitWordsAux, h, GoodWords]
      · simp only [splitWordsAux, if_neg h]
        intro w hw
        rcases List.mem_singleton.mp hw with rfl
        refine ⟨by simpa using h, fun c hc => hacc c (List.mem_reverse.mp hc)⟩
    | cons c cs ih =>
      intro acc hacc
      by_cases hc : wsp c
      · by_cases h : acc = []
        · simp only [splitWordsAux, hc, if_pos rfl, h, if_pos rfl]
          exact ih [] (by simp)
        · simp only [splitWordsAux, hc, if_pos rfl, if_neg h]
          intro w hw
          rcases List.mem_cons.mp hw with rfl | hw'
          · refine ⟨by simpa using h, fun d hd => hacc d (List.mem_reverse.mp hd)⟩
          · exact ih [] (by simp) w hw'
      · simp only [splitWordsAux, hc, Bool.false_eq_true, if_false]
        refine ih (c :: acc) ?_
        intro d hd
        rcases List.mem_cons.mp hd with rfl | hd'
        · simpa using hc
        · exact hacc d hd'
  intro l
  exact haux l [] (by simp)

theorem joinWords_cons (w : List Char) (ws : List (List Char)) (hws : ws ≠ []) :
    joinWords (w :: ws) = w ++ ' ' :: joinWords ws := by
  cases ws with
  | nil => exact absurd rfl hws
  | cons w' rest => rfl

theorem splitWords_joinWords :
    ∀ (ws : List (List Char)), GoodWords ws → splitWords (joinWords ws) = ws := by
  intro ws
  induction ws with
  | nil => intro _; rfl
  | cons w rest ih =>
    intro hg
    cases rest with
    | nil =>
      rcases hg w (List.mem_cons_self w []) with ⟨hne, hall⟩
      exact splitWords_single hne hall
    | cons w' rest' =>
      rw [joinWords_cons w _ (List.cons_ne_nil w' rest'),
        splitWords_append_ws (by simp [wsp]) w _]
      rcases hg w (List.mem_cons_self w _) with ⟨hne, hall⟩
      rw [splitWords_single hne hall, ih (fun x hx => hg x (List.mem_cons_of_mem w hx))]
      rfl

/-! ### C9 — tidy-string lemmas -/

theorem splitWordsAux_head_noWS :
    ∀ (s acc : List Char), acc ≠ [] →
      splitWordsAux s acc =
        (acc.reverse ++ s.takeWhile (fun c => !wsp c)) ::
          splitWords (s.dropWhile (fun c => !wsp c)) := by
  intro s
  induction s with
  | nil =>
    intro acc h
    simp [splitWordsAux, h, splitWords]
  | cons c cs ih =>
    intro acc h
    by_cases hc : wsp c
    · simp [splitWordsAux, hc, h, List.takeWhile_cons, List.dropWhile_cons, splitWords,
        splitWords_cons_ws hc]
    · simp only [splitWordsAux, hc, Bool.false_eq_true, if_false, List.takeWhile_cons,
        List.dropWhile_cons]
      rw [ih (c :: acc) (List.cons_ne_nil c acc)]
      simp [hc]

theorem splitWords_cons_noWS {c : Char} (hc : wsp c = false) (cs : List Char) :
    splitWords (c :: cs) =
      (c :: cs.takeWhile (fun c => !wsp c)) ::
        splitWords (cs.dropWhile (fun c => !wsp c)) := by
  rw [splitWords]
  show splitWordsAux (c :: cs) [] = _
  simp only [splitWordsAux, hc, Bool.false_eq_true, if_false]
  rw [splitWordsAux_head_noWS cs [c] (List.cons_ne_nil c [])]
  rfl

theorem tidy_head_noWS {s : List Char} (ht : Tidy s) {c : Char}
    (hc : s.head? = some c) : wsp c = false :=
  head_false_of_dropWhile_eq_self ht.1 hc

theorem tidy_last_noWS {s : List Char} (ht : Tidy s) {c : Char}
    (hc : s.reverse.head? = some c) : wsp c = false :=
  head_false_of_dropWhile_eq_self ht.2 hc

theorem tidy_nil : Tidy ([] : List Char) := ⟨rfl, rfl⟩

theorem mem_of_head?_eq {α : Type} {l : List α} {c : α} (h : l.head? = some c) : c ∈ l := by
  cases l with
  | nil => simp at h
  | cons x xs =>
    have hx : x = c := by simpa using h
    rw [← hx]
    exact List.mem_cons_self x xs

theorem exists_head?_of_ne_nil {α : Type} {l : List α} (h : l ≠ []) :
    ∃ c, l.head? = some c := by
  cases l with
  | nil => exact absurd rfl h
  | cons x xs => exact ⟨x, rfl⟩

theorem noWS_tidy {w : List Char} (hall : ∀ c ∈ w, wsp c = false) : Tidy w := by
  constructor
  · exact dropWhile_eq_self_of_head (fun c hc => hall c (mem_of_head?_eq hc))
  · exact dropWhile_eq_self_of_head
      (fun c hc => hall c (List.mem_reverse.mp (mem_of_head?_eq hc)))

theorem tidy_single_word {s w : List Char} (ht : Tidy s) (hne : s ≠ [])
    (hw : splitWords s = [w]) : s = w := by
  cases s with
  | nil => exact absurd rfl hne
  | cons c cs =>
    have hc : wsp c = false := tidy_head_noWS ht rfl
    rw [splitWords_cons_noWS hc] at hw
    have hd : splitWords (cs.dropWhile (fun c => !wsp c)) = [] := by
      have := congrArg List.tail hw
      simpa using this
    have hwd : w = c :: cs.takeWhile (fun c => !wsp c) := by
      have := congrArg List.head? hw
      simpa using this.symm
    have hsplit : cs.takeWhile (fun c => !wsp c) ++ cs.dropWhile (fun c => !wsp c) = cs :=
      List.takeWhile_append_dropWhile _ _
    cases hdw : cs.dropWhile (fun c => !wsp c) with
    | nil =>
      rw [hdw, List.append_nil] at hsplit
      rw [hwd, hsplit]
    | cons e d' =>
      exfalso
      have hrev : (e :: d').reverse ≠ [] := by simp
      obtain ⟨f, hf⟩ := exists_head?_of_ne_nil hrev
      have hfmem : f ∈ e :: d' := List.mem_reverse.mp (mem_of_head?_eq hf)
      have hfws : wsp f = true := by
        have hmem2 : f ∈ cs.dropWhile (fun c => !wsp c) := hdw ▸ hfmem
        exact splitWords_eq_nil_all_ws _ hd f hmem2
      have hlast : (c :: cs).reverse.head? = some f := by
        have hcs : cs = cs.takeWhile (fun c => !wsp c) ++ e :: d' := by
          rw [← hdw, hsplit]
        rw [show (c :: cs).reverse = cs.reverse ++ [c] from by simp]
        rw [head?_append_left [c] (by
          intro habs
          rw [List.reverse_eq_nil_iff] at habs
          rw [habs] at hcs
          exact (List.cons_ne_nil e d') (List.append_eq_nil.mp hcs.symm).2)]
        conv_lhs => rw [hcs]
        rw [List.reverse_append, head?_append_left _ hrev]
        exact hf
      have hlws := tidy_last_noWS ht hlast
      rw [hfws] at hlws
      exact Bool.noConfusion hlws

/-! ### C9 — joins, trims and overlap-buffer lemmas -/

theorem tidy_joinSp {a b : List Char} (ha : Tidy a) (hb : Tidy b) (hbne : b ≠ []) :
    Tidy (joinSp a b) := by
  unfold joinSp
  by_cases hae : a = []
  · rw [if_pos hae]; exact hb
  · rw [if_neg hae]
    constructor
    · refine dropWhile_eq_self_of_head ?_
      intro c hc
      rw [head?_append_left _ hae] at hc
      exact tidy_head_noWS ha hc
    · refine dropWhile_eq_self_of_head ?_
      intro c hc
      rw [List.reverse_append, List.reverse_cons] at hc
      rw [head?_append_left _ (by simp [hbne] : b.reverse ++ [' '] ≠ [])] at hc
      rw [head?_append_left _ (by simpa using hbne)] at hc
      exact tidy_last_noWS hb hc

theorem joinWords_ne_nil {ws : List (List Char)} (hne : ws ≠ [])
    (hg : GoodWords ws) : joinWords ws ≠ [] := by
  cases ws with
  | nil => exact absurd rfl hne
  | cons w rest =>
    cases rest with
    | nil => exact (hg w (List.mem_cons_self w [])).1
    | cons w' rest' =>
      rw [joinWords_cons w _ (List.cons_ne_nil w' rest')]
      simp

theorem tidy_joinWords {ws : List (List Char)} (hg : GoodWords ws) :
    Tidy (joinWords ws) := by
  induction ws with
  | nil => exact tidy_nil
  | cons w rest ih =>
    cases rest with
    | nil =>
      exact noWS_tidy (hg w (List.mem_cons_self w [])).2
    | cons w' rest' =>
      rw [joinWords_cons w _ (List.cons_ne_nil w' rest')]
      have hjoin : w ++ ' ' :: joinWords (w' :: rest') =
          joinSp w (joinWords (w' :: rest')) := by
        unfold joinSp
        rw [if_neg (hg w (List.mem_cons_self w _)).1]
      rw [hjoin]
      refine tidy_joinSp (noWS_tidy (hg w (List.mem_cons_self w _)).2)
        (ih (fun x hx => hg x (List.mem_cons_of_mem w hx)))
        (joinWords_ne_nil (List.cons_ne_nil w' rest')
          (fun x hx => hg x (List.mem_cons_of_mem w hx)))

theorem splitWords_joinSp (a b : List Char) :
    splitWords (joinSp a b) = splitWords a ++ splitWords b := by
  unfold joinSp
  by_cases hae : a = []
  · rw [if_pos hae, hae]
    rfl
  · rw [if_neg hae]
    exact splitWords_append_ws (by simp [wsp]) a b

theorem splitWords_dropWhile_ws (l : List Char) :
    splitWords (l.dropWhile wsp) = splitWords l := by
  induction l with
  | nil => rfl
  | cons c cs ih =>
    by_cases hc : wsp c
    · rw [List.dropWhile_cons, if_pos hc, ih, splitWords_cons_ws hc]
    · rw [List.dropWhile_cons, if_neg hc]

theorem splitWords_append_all_ws {y t : List Char} (ht : ∀ c ∈ t, wsp c = true) :
    splitWords (y ++ t) = splitWords y := by
  cases t with
  | nil => rw [List.append_nil]
  | cons e t' =>
    rw [splitWords_append_ws (ht e (List.mem_cons_self e t')) y t']
    rw [splitWords_all_ws t' (fun c hc => ht c (List.mem_cons_of_mem e hc))]
    rw [List.append_nil]

theorem splitWords_trimChars (l : List Char) :
    splitWords (trimChars l) = splitWords l := by
  have hdecomp := trim_decomposition l
  have hws : ∀ c ∈ ((l.dropWhile wsp).reverse.takeWhile wsp).reverse, wsp c = true := by
    intro c hc
    exact List.mem_takeWhile_imp (List.mem_reverse.mp hc)
  have hdecomp2 : l.dropWhile wsp =
      trimChars l ++ ((l.dropWhile wsp).reverse.takeWhile wsp).reverse := hdecomp
  calc splitWords (trimChars l)
      = splitWords (trimChars l ++
          ((l.dropWhile wsp).reverse.takeWhile wsp).reverse) :=
        (splitWords_append_all_ws hws).symm
    _ = splitWords (l.dropWhile wsp) := by rw [← hdecomp2]
    _ = splitWords l := splitWords_dropWhile_ws l

theorem splitWords_ne_nil_of_tidy {s : List Char} (ht : Tidy s) (hne : s ≠ []) :
    splitWords s ≠ [] := by
  cases s with
  | nil => exact absurd rfl hne
  | cons c cs =>
    rw [splitWords_cons_noWS (tidy_head_noWS ht rfl)]
    exact List.cons_ne_nil _ _

theorem trimOvFuel_words (tok : List Char → Nat) (ov : Nat) :
    ∀ (n : Nat) (s : List Char),
      ∃ k, splitWords (trimOvFuel tok ov n s) = (splitWords s).drop k := by
  intro n
  induction n with
  | zero => intro s; exact ⟨0, rfl⟩
  | succ n ih =>
    intro s
    unfold trimOvFuel
    by_cases h1 : ov < tok s
    · rw [if_pos h1]
      dsimp only
      by_cases h2 : (splitWords s).length ≤ 1
      · rw [if_pos h2]; exact ⟨0, rfl⟩
      · rw [if_neg h2]
        have hgood : GoodWords ((splitWords s).drop 1) :=
          fun w hw => splitWords_good s w (List.mem_of_mem_drop hw)
        rcases ih (joinWords ((splitWords s).drop 1)) with ⟨k, hk⟩
        refine ⟨k + 1, ?_⟩
        rw [hk, splitWords_joinWords _ hgood, List.drop_drop, Nat.add_comm]
    · rw [if_neg h1]; exact ⟨0, rfl⟩

theorem trimOvFuel_tidy (tok : List Char → Nat) (ov : Nat) :
    ∀ (n : Nat) (s : List Char), Tidy s → Tidy (trimOvFuel tok ov n s) := by
  intro n
  induction n with
  | zero => intro s h; exact h
  | succ n ih =>
    intro s hs
    unfold trimOvFuel
    by_cases h1 : ov < tok s
    · rw [if_pos h1]
      dsimp only
      by_cases h2 : (splitWords s).length ≤ 1
      · rw [if_pos h2]; exact hs
      · rw [if_neg h2]
        refine ih _ (tidy_joinWords ?_)
        exact fun w hw => splitWords_good s w (List.mem_of_mem_drop hw)
    · rw [if_neg h1]; exact hs

theorem trimOvFuel_bound (tok : List Char → Nat) (ov : Nat) :
    ∀ (n : Nat) (s : List Char), Tidy s → s ≠ [] → (splitWords s).length ≤ n →
      tok (trimOvFuel tok ov n s) ≤ ov ∨
        ∃ w ∈ splitWords s, trimOvFuel tok ov n s = w := by
  intro n
  induction n with
  | zero =>
    intro s hs hne hlen
    exfalso
    have := splitWords_ne_nil_of_tidy hs hne
    have hz : (splitWords s).length = 0 := Nat.le_zero.mp hlen
    exact this (List.length_eq_zero.mp hz)
  | succ n ih =>
    intro s hs hne hlen
    unfold trimOvFuel
    by_cases h1 : ov < tok s
    · rw [if_pos h1]
      dsimp only
      by_cases h2 : (splitWords s).length ≤ 1
      · rw [if_pos h2]
        have hpos : 0 < (splitWords s).length :=
          List.length_pos.mpr (splitWords_ne_nil_of_tidy hs hne)
        have hone : (splitWords s).length = 1 := le_antisymm h2 hpos
        rcases List.length_eq_one.mp hone with ⟨w, hw⟩
        right
        exact ⟨w, hw ▸ List.mem_cons_self w [], tidy_single_word hs hne hw⟩
      · rw [if_neg h2]
        have hgood : GoodWords ((splitWords s).drop 1) :=
          fun w hw => splitWords_good s w (List.mem_of_mem_drop hw)
        have hdropne : (splitWords s).drop 1 ≠ [] := by
          intro habs
          have := congrArg List.length habs
          rw [List.length_drop] at this
          simp at this
          omega
        have hs' : Tidy (joinWords ((splitWords s).drop 1)) := tidy_joinWords hgood
        have hne' : joinWords ((splitWords s).drop 1) ≠ [] :=
          joinWords_ne_nil hdropne hgood
        have hlen' : (splitWords (joinWords ((splitWords s).drop 1))).length ≤ n := by
          rw [splitWords_joinWords _ hgood, List.length_drop]
          omega
        rcases ih _ hs' hne' hlen' with h | ⟨w, hw, hr⟩
        · exact Or.inl h
        · right
          refine ⟨w, ?_, hr⟩
          rw [splitWords_joinWords _ hgood] at hw
          exact List.mem_of_mem_drop hw
    · rw [if_neg h1]
      exact Or.inl (le_of_not_lt h1)

theorem trimOverlap_cases (tok : List Char → Nat) (ov : Nat) {s : List Char}
    (hs : Tidy s) (hne : s ≠ []) :
    tok (trimOverlap tok ov s) ≤ ov ∨
      ∃ w ∈ splitWords s, trimOverlap tok ov s = w :=
  trimOvFuel_bound tok ov _ s hs hne (le_refl _)

theorem trimOverlap_tidy (tok : List Char → Nat) (ov : Nat) {s : List Char}
    (hs : Tidy s) : Tidy (trimOverlap tok ov s) :=
  trimOvFuel_tidy tok ov _ s hs

theorem trimOverlap_words (tok : List Char → Nat) (ov : Nat) (s : List Char) :
    ∀ w ∈ splitWords (trimOverlap tok ov s), w ∈ splitWords s := by
  intro w hw
  rcases trimOvFuel_words tok ov (splitWords s).length s with ⟨k, hk⟩
  rw [trimOverlap] at hw
  rw [hk] at hw
  exact List.mem_of_mem_drop hw

/-! ### C9 — chunker invariants -/

theorem tidy_trimChars (l : List Char) : Tidy (trimChars l) :=
  ⟨trimChars_dropWhile_fixed l, trimChars_reverse_fixed l⟩

theorem joinSp_nil (b : List Char) : joinSp [] b = b := by simp [joinSp]

theorem forceStep_inv (tok : List Char → Nat) (size minsz : Nat)
    (PW : List (List Char)) (hPW : ∀ w ∈ PW, tok w ≤ size)
    (p : List (List Char) × List Char) (w : List Char)
    (hp : GoodForce tok size PW p) (hw : w ∈ PW) (hwne : w ≠ [])
    (hwns : ∀ c ∈ w, wsp c = false) :
    GoodForce tok size PW (forceStep tok size minsz p w) := by
  obtain ⟨hchunks, htemp⟩ := hp
  unfold forceStep
  by_cases hfit : tok (joinSp p.2 w) ≤ size
  · rw [if_pos hfit]
    refine ⟨hchunks, Or.inr ⟨?_, hfit, ?_⟩⟩
    · rcases htemp with he | ⟨ht, _, _⟩
      · rw [he, joinSp_nil]
        exact noWS_tidy hwns
      · exact tidy_joinSp ht (noWS_tidy hwns) hwne
    · intro x hx
      rw [splitWords_joinSp] at hx
      rcases List.mem_append.mp hx with h | h
      · rcases htemp with he | ⟨_, _, hws⟩
        · rw [he] at h; simp [splitWords_nil] at h
        · exact hws x h
      · rw [splitWords_single hwne hwns] at h
        rcases List.mem_singleton.mp h with rfl
        exact hw
  · rw [if_neg hfit]
    refine ⟨?_, Or.inr ⟨noWS_tidy hwns, hPW w hw, ?_⟩⟩
    · intro c hc
      dsimp only at hc
      by_cases hcond : p.2 ≠ [] ∧ minsz ≤ tok p.2
      · rw [if_pos hcond] at hc
        rcases List.mem_append.mp hc with h | h
        · exact hchunks c h
        · rcases List.mem_singleton.mp h with rfl
          rcases htemp with he | ⟨_, hsz, _⟩
          · exact absurd he hcond.1
          · exact hsz
      · rw [if_neg hcond] at hc
        exact hchunks c hc
    · intro x hx
      rw [splitWords_single hwne hwns] at hx
      rcases List.mem_singleton.mp hx with rfl
      exact hw

theorem force_fold_inv (tok : List Char → Nat) (size minsz : Nat)
    (PW : List (List Char)) (hPW : ∀ w ∈ PW, tok w ≤ size) :
    ∀ (ws : List (List Char)) (p : List (List Char) × List Char),
      GoodForce tok size PW p →
      (∀ w ∈ ws, w ∈ PW ∧ w ≠ [] ∧ ∀ c ∈ w, wsp c = false) →
      GoodForce tok size PW (ws.foldl (forceStep tok size minsz) p) := by
  intro ws
  induction ws with
  | nil => intro p hp _; exact hp
  | cons w rest ih =>
    intro p hp hall
    rw [List.foldl_cons]
    rcases hall w (List.mem_cons_self w rest) with ⟨h1, h2, h3⟩
    exact ih _ (forceStep_inv tok size minsz PW hPW p w hp h1 h2 h3)
      (fun x hx => hall x (List.mem_cons_of_mem w hx))

theorem chunkStep_eq_skip {tok : List Char → Nat} {size ov minsz : Nat}
    {st : ChunkState} {part0 : List Char} (h : trimChars part0 = []) :
    chunkStep tok size ov minsz st part0 = st := by
  simp [chunkStep, h]

theorem chunkStep_eq_fit {tok : List Char → Nat} {size ov minsz : Nat}
    {st : ChunkState} {part0 : List Char} (h : trimChars part0 ≠ [])
    (hfit : tok (joinSp st.current (trimChars part0)) ≤ size) :
    chunkStep tok size ov minsz st part0 =
      { st with current := joinSp st.current (trimChars part0) } := by
  simp [chunkStep, h, hfit]

theorem chunkStep_eq_flush_fit {tok : List Char → Nat} {size ov minsz : Nat}
    {st : ChunkState} {part0 : List Char} (h : trimChars part0 ≠ [])
    (hnofit : ¬ tok (joinSp st.current (trimChars part0)) ≤ size)
    (hfit2 : tok (joinSp
        (if st.current ≠ [] ∧ minsz ≤ tok st.current then
          (if ov < tok st.current then trimOverlap tok ov st.current else st.current)
        else st.buffer) (trimChars part0)) ≤ size) :
    chunkStep tok size ov minsz st part0 =
      { chunks := if st.current ≠ [] ∧ minsz ≤ tok st.current then
          st.chunks ++ [st.current] else st.chunks,
        current := joinSp
          (if st.current ≠ [] ∧ minsz ≤ tok st.current then
            (if ov < tok st.current then trimOverlap tok ov st.current else st.current)
          else st.buffer) (trimChars part0),
        buffer := if st.current ≠ [] ∧ minsz ≤ tok st.current then
          (if ov < tok st.current then trimOverlap tok ov st.current else st.current)
        else st.buffer } := by
  simp only [chunkStep, if_neg h, hnofit, hfit2, if_pos, if_false, Bool.false_eq_true]

theorem chunkStep_eq_force {tok : List Char → Nat} {size ov minsz : Nat}
    {st : ChunkState} {part0 : List Char} (h : trimChars part0 ≠ [])
    (hnofit : ¬ tok (joinSp st.current (trimChars part0)) ≤ size)
    (hnofit2 : ¬ tok (joinSp
        (if st.current ≠ [] ∧ minsz ≤ tok st.current then
          (if ov < tok st.current then trimOverlap tok ov st.current else st.current)
        else st.buffer) (trimChars part0)) ≤ size) :
    chunkStep tok size ov minsz st part0 =
      { chunks := ((splitWords (trimChars part0)).foldl (forceStep tok size minsz)
          ((if st.current ≠ [] ∧ minsz ≤ tok st.current then
              st.chunks ++ [st.current] else st.chunks),
           (if st.current ≠ [] ∧ minsz ≤ tok st.current then
              (if ov < tok st.current then trimOverlap tok ov st.current else st.current)
            else st.buffer))).1,
        current := ((splitWords (trimChars part0)).foldl (forceStep tok size minsz)
          ((if st.current ≠ [] ∧ minsz ≤ tok st.current then
              st.chunks ++ [st.current] else st.chunks),
           (if st.current ≠ [] ∧ minsz ≤ tok st.current then
              (if ov < tok st.current then trimOverlap tok ov st.current else st.current)
            else st.buffer))).2,
        buffer := if st.current ≠ [] ∧ minsz ≤ tok st.current then
          (if ov < tok st.current then trimOverlap tok ov st.current else st.current)
        else st.buffer } := by
  simp only [chunkStep, if_neg h]
  rw [if_neg hnofit, if_neg hnofit2]

theorem chunkStep_inv (tok : List Char → Nat) (size ov minsz : Nat)
    (PW : List (List Char)) (hov : ov ≤ size) (hPW : ∀ w ∈ PW, tok w ≤ size)
    (st : ChunkState) (part0 : List Char) (hst : GoodState tok size PW st)
    (hpw : ∀ w ∈ splitWords part0, w ∈ PW) :
    GoodState tok size PW (chunkStep tok size ov minsz st part0) := by
  obtain ⟨hchunks, hcur, hbuf⟩ := hst
  by_cases hpe : trimChars part0 = []
  · rw [chunkStep_eq_skip hpe]
    exact ⟨hchunks, hcur, hbuf⟩
  have hptidy : Tidy (trimChars part0) := tidy_trimChars part0
  have hpwords : ∀ w ∈ splitWords (trimChars part0), w ∈ PW := by
    rw [splitWords_trimChars]
    exact hpw
  have hbuf1 : (if st.current ≠ [] ∧ minsz ≤ tok st.current then
        (if ov < tok st.current then trimOverlap tok ov st.current else st.current)
      else st.buffer) = [] ∨
      (Tidy (if st.current ≠ [] ∧ minsz ≤ tok st.current then
        (if ov < tok st.current then trimOverlap tok ov st.current else st.current)
      else st.buffer) ∧
       tok (if st.current ≠ [] ∧ minsz ≤ tok st.current then
        (if ov < tok st.current then trimOverlap tok ov st.current else st.current)
      else st.buffer) ≤ size ∧
       ∀ w ∈ splitWords (if st.current ≠ [] ∧ minsz ≤ tok st.current then
        (if ov < tok st.current then trimOverlap tok ov st.current else st.current)
      else st.buffer), w ∈ PW) := by
    by_cases hflush : st.current ≠ [] ∧ minsz ≤ tok st.current
    · rw [if_pos hflush]
      rcases hcur with he | ⟨hct, hcsz, hcw⟩
      · exact absurd he hflush.1
      · by_cases hov2 : ov < tok st.current
        · rw [if_pos hov2]
          right
          refine ⟨trimOverlap_tidy tok ov hct, ?_,
            fun w hw => hcw w (trimOverlap_words tok ov st.current w hw)⟩
          rcases trimOverlap_cases tok ov hct hflush.1 with h | ⟨w, hwmem, hr⟩
          · exact le_trans h hov
          · rw [hr]
            exact hPW w (hcw w hwmem)
        · rw [if_neg hov2]
          exact Or.inr ⟨hct, hcsz, hcw⟩
    · rw [if_neg hflush]
      exact hbuf
  have hchunks1 : ∀ c ∈ (if st.current ≠ [] ∧ minsz ≤ tok st.current then
      st.chunks ++ [st.current] else st.chunks), tok c ≤ size := by
    by_cases hflush : st.current ≠ [] ∧ minsz ≤ tok st.current
    · rw [if_pos hflush]
      intro c hc
      rcases List.mem_append.mp hc with h | h
      · exact hchunks c h
      · rcases List.mem_singleton.mp h with rfl
        rcases hcur with he | ⟨_, hcsz, _⟩
        · exact absurd he hflush.1
        · exact hcsz
    · rw [if_neg hflush]
      exact hchunks
  by_cases hfit1 : tok (joinSp st.current (trimChars part0)) ≤ size
  · rw [chunkStep_eq_fit hpe hfit1]
    refine ⟨hchunks, Or.inr ⟨?_, hfit1, ?_⟩, hbuf⟩
    · rcases hcur with he | ⟨hct, _, _⟩
      · rw [he, joinSp_nil]
        exact hptidy
      · exact tidy_joinSp hct hptidy hpe
    · intro x hx
      rw [splitWords_joinSp] at hx
      rcases List.mem_append.mp hx with hx | hx
      · rcases hcur with he | ⟨_, _, hcw⟩
        · rw [he] at hx
          exact absurd hx (List.not_mem_nil x)
        · exact hcw x hx
      · exact hpwords x hx
  · by_cases hfit2 : tok (joinSp
        (if st.current ≠ [] ∧ minsz ≤ tok st.current then
          (if ov < tok st.current then trimOverlap tok ov st.current else st.current)
        else st.buffer) (trimChars part0)) ≤ size
    · rw [chunkStep_eq_flush_fit hpe hfit1 hfit2]
      refine ⟨hchunks1, Or.inr ⟨?_, hfit2, ?_⟩, hbuf1⟩
      · rcases hbuf1 with he | ⟨hbt, _, _⟩
        · rw [he, joinSp_nil]
          exact hptidy
        · exact tidy_joinSp hbt hptidy hpe
      · intro x hx
        rw [splitWords_joinSp] at hx
        rcases List.mem_append.mp hx with hx | hx
        · rcases hbuf1 with he | ⟨_, _, hbw⟩
          · rw [he] at hx
            exact absurd hx (List.not_mem_nil x)
          · exact hbw x hx
        · exact hpwords x hx
    · rw [chunkStep_eq_force hpe hfit1 hfit2]
      have hforce := force_fold_inv tok size minsz PW hPW (splitWords (trimChars part0))
        ((if st.current ≠ [] ∧ minsz ≤ tok st.current then
            st.chunks ++ [st.current] else st.chunks),
         (if st.current ≠ [] ∧ minsz ≤ tok st.current then
            (if ov < tok st.current then trimOverlap tok ov st.current else st.current)
          else st.buffer))
        ⟨hchunks1, hbuf1⟩
        (fun w hw => ⟨hpwords w hw, (splitWords_good _ w hw).1, (splitWords_good _ w hw).2⟩)
      exact ⟨hforce.1, hforce.2, hbuf1⟩

theorem chunk_fold_inv (tok : List Char → Nat) (size ov minsz : Nat)
    (PW : List (List Char)) (hov : ov ≤ size) (hPW : ∀ w ∈ PW, tok w ≤ size) :
    ∀ (parts : List (List Char)) (st : ChunkState), GoodState tok size PW st →
      (∀ p ∈ parts, ∀ w ∈ splitWords p, w ∈ PW) →
      GoodState tok size PW (parts.foldl (chunkStep tok size ov minsz) st) := by
  intro parts
  induction parts with
  | nil => intro st h _; exact h
  | cons p rest ih =>
    intro st h hall
    rw [List.foldl_cons]
    exact ih _ (chunkStep_inv tok size ov minsz PW hov hPW st p h
      (hall p (List.mem_cons_self p rest)))
      (fun x hx => hall x (List.mem_cons_of_mem p hx))

theorem create_chunks_with_overlap_bound (tok : List Char → Nat) (size ov minsz : Nat)
    (parts : List (List Char)) (hov : ov ≤ size)
    (hw : ∀ w ∈ allWords parts, tok w ≤ size) :
    ∀ c ∈ create_chunks_with_overlap tok size ov minsz parts, tok c ≤ size := by
  have hfold := chunk_fold_inv tok size ov minsz (allWords parts) hov hw parts
    ⟨[], [], []⟩ ⟨fun c hc => absurd hc (List.not_mem_nil c), Or.inl rfl, Or.inl rfl⟩
    (fun p hp w hwp => by
      unfold allWords
      exact List.mem_flatten.mpr ⟨splitWords p, List.mem_map_of_mem splitWords hp, hwp⟩)
  obtain ⟨hchunks, hcur, _⟩ := hfold
  intro c hc
  unfold create_chunks_with_overlap at hc
  by_cases hfin : (parts.foldl (chunkStep tok size ov minsz) ⟨[], [], []⟩).current ≠ [] ∧
      minsz ≤ tok (parts.foldl (chunkStep tok size ov minsz) ⟨[], [], []⟩).current
  · rw [if_pos hfin] at hc
    rcases List.mem_append.mp hc with h | h
    · exact hchunks c h
    · rcases List.mem_singleton.mp h with rfl
      rcases hcur with he | ⟨_, hcsz, _⟩
      · exact absurd he hfin.1
      · exact hcsz
  · rw [if_neg hfin] at hc
    exact hchunks c hc

theorem buildChunkRecs_token (tok : List Char → Nat) (meta : ChunkMeta) (tl : Nat) :
    ∀ (ts : List (List Char)) (i pos : Nat),
      ∀ rec ∈ buildChunkRecs tok meta tl i pos ts, ∃ t ∈ ts, rec.token_count = tok t := by
  intro ts
  induction ts with
  | nil => intro i pos rec hrec; simp [buildChunkRecs] at hrec
  | cons t rest ih =>
    intro i pos rec hrec
    rw [buildChunkRecs] at hrec
    rcases List.mem_cons.mp hrec with rfl | hrec'
    · exact ⟨t, List.mem_cons_self t rest, rfl⟩
    · rcases ih (i + 1) (pos + t.length + 1) rec hrec' with ⟨t', ht', heq⟩
      exact ⟨t', List.mem_cons_of_mem t ht', heq⟩

/-- C9 (amended).  Every chunk produced by `create_chunks` has
    `token_count ≤ chunk_size`, provided the configured overlap budget does
    not exceed `chunk_size` and every whitespace-delimited word of every part
    produced by the separator splitting has token count at most `chunk_size`.
    (Without the word proviso an unsplittable oversized word survives the
    force-split loop unchanged; see the counterexample.) -/
theorem create_chunks_token_bound (tok : List Char → Nat) (size ov minsz : Nat)
    (separators : List (List Char)) (text : List Char) (meta : ChunkMeta)
    (hov : ov ≤ size)
    (hw : ∀ p ∈ split_text_by_separators tok size text separators,
      ∀ w ∈ splitWords p, tok w ≤ size) :
    ∀ c ∈ create_chunks tok size ov minsz separators text meta, c.token_count ≤ size := by
  intro c hc
  unfold create_chunks at hc
  rcases buildChunkRecs_token tok meta text.length _ 0 0 c hc with ⟨t, ht, heq⟩
  rw [heq]
  refine create_chunks_with_overlap_bound tok size ov minsz _ hov ?_ t ht
  intro w hwmem
  unfold allWords at hwmem
  rcases List.mem_flatten.mp hwmem with ⟨l, hl, hwl⟩
  rcases List.mem_map.mp hl with ⟨p, hp, rfl⟩
  exact hw p hp w hwl

/-- Witness for the amended C9 theorem: a character tokenizer, budget 3, and
    the text `"ab cd ef"` split on spaces. -/
theorem create_chunks_token_bound_witness :
    (⟨"d_001", some "d", "ab".data, 0, 2, 0, 2, 2, none⟩ : ChunkRec).token_count ≤ 3 :=
  create_chunks_token_bound (fun l => l.length) 3 1 0 [" ".data] "ab cd ef".data
    ⟨some "d", none, none, none, none, none, none⟩ (by decide) (by decide)
    ⟨"d_001", some "d", "ab".data, 0, 2, 0, 2, 2, none⟩ (by decide)

/-- C9 counterexample: a single word whose token count (8, character
    tokenizer) exceeds the chunk size 3 surfaces as a returned chunk with
    `token_count = 8 > 3`. -/
theorem create_chunks_oversize_counterexample :
    ((create_chunks (fun l => l.length) 3 0 0 [" ".data] "abcdefgh".data
        ⟨none, none, none, none, none, none, none⟩).map (·.token_count) = [8]) ∧
    ¬(8 ≤ 3) := by
  constructor
  · decide
  · decide

end LocalRAG
